import Mathlib

/-!
Verification development for the proxy-subscription aggregation pipeline
(`aggregator_cli.py`, `enhanced_key_manager.py`).

Python strings are modelled as `List Char` (`Str`); Python `float`
timestamps and traffic volumes are modelled as `ℚ` (exact rationals, so
"within rounding tolerance" statements become exact statements about the
2-decimal rounding the code performs); Python dictionaries keyed by URL are
modelled as functions into `Option`.

Each definition mirrors one Python function of the source and keeps its
name where Lean allows it.
-/

set_option maxRecDepth 10000

-- ===================== Definitions =====================

/-- Python `str` modelled as a list of characters. -/
abbrev Str := List Char

/-- Characters of a Lean string literal, used to embed Python string literals. -/
def strChars (s : String) : Str := s.data

/-- Python `str.isspace` / whitespace stripped by `str.strip()` (the
common whitespace characters; Python also strips some rarer Unicode
spaces, which never occur in the inputs modelled here). -/
def isPySpace (c : Char) : Bool :=
  c == ' ' || c == '\t' || c == '\n' || c == '\r' ||
  c == Char.ofNat 11 || c == Char.ofNat 12 ||
  c == Char.ofNat 0x85 || c == Char.ofNat 0xa0 || c == Char.ofNat 0x3000

/-- Python `s.strip()`: drop leading and trailing whitespace. -/
def pyStrip (s : Str) : Str :=
  ((s.dropWhile isPySpace).reverse.dropWhile isPySpace).reverse

/-- `p` is a prefix of `s` (Python `s.startswith(p)`). -/
def isPrefixStr : Str → Str → Bool
  | [], _ => true
  | _ :: _, [] => false
  | a :: p, b :: s => a == b && isPrefixStr p s

/-- Python `needle in hay` substring test. -/
def containsSub (n : Str) : Str → Bool
  | [] => n.isEmpty
  | c :: t => isPrefixStr n (c :: t) || containsSub n t

/-- Split at the first occurrence of `c` (Python `s.split(c, 1)` when `c`
occurs); `none` when `c` does not occur. -/
def splitFirst (c : Char) : Str → Option (Str × Str)
  | [] => none
  | a :: t =>
    if a == c then some ([], t)
    else (splitFirst c t).map (fun p => (a :: p.1, p.2))

/-- Python `s.split(c)` (full split on a single-character separator). -/
def splitAll (c : Char) : Str → List Str
  | [] => [[]]
  | a :: t =>
    match splitAll c t with
    | [] => [[]]
    | h :: rs => if a == c then [] :: h :: rs else (a :: h) :: rs

/-- Python `s.lower()` restricted to ASCII case mapping (the code only
lowercases hosts, tokens and units, which are ASCII). -/
def toLowerStr (s : Str) : Str := s.map Char.toLower

/-- ASCII alphanumeric test, the character class of `re` pattern `[A-Za-z0-9]`. -/
def isAsciiAlnum (c : Char) : Bool :=
  (65 ≤ c.toNat && c.toNat ≤ 90) || (97 ≤ c.toNat && c.toNat ≤ 122) ||
    (48 ≤ c.toNat && c.toNat ≤ 57)

/-- ASCII digit, the character class `[0-9]`. -/
def isAsciiDigit (c : Char) : Bool := 48 ≤ c.toNat && c.toNat ≤ 57

/-- ASCII letter (`str.isalpha` restricted to ASCII, as the urlsplit
scheme check requires). -/
def isAsciiAlpha (c : Char) : Bool :=
  (65 ≤ c.toNat && c.toNat ≤ 90) || (97 ≤ c.toNat && c.toNat ≤ 122)

-- ------------- Protocol prefixes and node lines (aggregator_cli.py) -------------

/-- `PROTOCOL_PREFIXES` from aggregator_cli.py. -/
def PROTOCOL_PREFIXES : List Str :=
  [strChars "vmess://", strChars "vless://", strChars "trojan://",
   strChars "ss://", strChars "ssr://", strChars "hysteria2://"]

/-- `RATE_LIMIT_BODY_HINTS` from aggregator_cli.py. -/
def RATE_LIMIT_BODY_HINTS : List Str :=
  [strChars "rate limit", strChars "too many requests", strChars "quota exceeded",
   strChars "exceeded", strChars "bandwidth exceeded", strChars "流量已用尽",
   strChars "超出配额", strChars "请求过多"]

/-- `normalize_node_line` from aggregator_cli.py: trim, drop empties and
lines that do not start with a recognized protocol prefix. -/
def normalize_node_line (line : Str) : Option Str :=
  let l := pyStrip line
  if l = [] then none
  else if PROTOCOL_PREFIXES.any (fun p => isPrefixStr p l) then some l
  else none

/-- `classify_protocol` from aggregator_cli.py: first match in the fixed
ordered protocol name list wins. -/
def classify_protocol (line : Str) : Option Str :=
  ([strChars "ss", strChars "vmess", strChars "vless", strChars "trojan",
    strChars "hysteria2", strChars "ssr"]).find?
    (fun p => isPrefixStr (p ++ strChars "://") line)

-- ------------- Dedup and cap (aggregator_cli.py main) -------------

/-- Accumulator loop of Python `dict.fromkeys`: keep an element iff it was
not seen before, remembering seen elements. -/
def dictFromKeysAux {α : Type} [DecidableEq α] (seen : List α) : List α → List α
  | [] => []
  | a :: t => if a ∈ seen then dictFromKeysAux seen t
              else a :: dictFromKeysAux (a :: seen) t

/-- `list(dict.fromkeys(nodes))` from aggregator_cli.py main (node dedup). -/
def pyDedup {α : Type} [DecidableEq α] (l : List α) : List α := dictFromKeysAux [] l

/-- The spec's description of dedup, written from the spec's words: keep
position `i` exactly when the element does not occur among the earlier
entries (first-seen-wins, order preserving). Used to compare against
`pyDedup`, which is translated from the code. -/
def firstOccurrencesAux {α : Type} [DecidableEq α] (pre : List α) : List α → List α
  | [] => []
  | a :: t => if a ∈ pre then firstOccurrencesAux (pre ++ [a]) t
              else a :: firstOccurrencesAux (pre ++ [a]) t

/-- Spec-side dedup: first occurrences in order. -/
def firstOccurrences {α : Type} [DecidableEq α] (l : List α) : List α :=
  firstOccurrencesAux [] l

/-- The cap from aggregator_cli.py main:
`if args.max and len(nodes) > args.max: nodes = nodes[:args.max]`. -/
def capMax {α : Type} (m : Nat) (l : List α) : List α :=
  if m ≠ 0 ∧ l.length > m then l.take m else l

-- ------------- Source state tracker (aggregator_cli.py) -------------

/-- One entry of the persistent rate-limit state map. -/
structure RateInfo where
  hits : Nat
  last_reason : Str
  last_at : ℚ
  next_allowed_at : ℚ
deriving DecidableEq

/-- The rate-limit state: per normalized URL, an optional record. -/
def RateState := Str → Option RateInfo

/-- State with no recorded URL. -/
def emptyRateState : RateState := fun _ => none

/-- `should_skip_due_to_backoff` from aggregator_cli.py: skip exactly when
`now` is strictly before the recorded `next_allowed_at`; URLs without a
record are never skipped. -/
def should_skip_due_to_backoff (st : RateState) (url : Str) (now : ℚ) : Bool :=
  match st url with
  | none => false
  | some info => decide (now < info.next_allowed_at)

/-- `mark_rate_limited` from aggregator_cli.py: increment the hit count,
wait `min(15 * 2^(hits-1), 24*60)` minutes, next allowed at `now + wait`. -/
def mark_rate_limited (st : RateState) (url : Str) (now : ℚ) (reason : Str) : RateState :=
  let hits := (match st url with | some i => i.hits | none => 0) + 1
  let baseMinutes : ℚ := 15 * 2 ^ (hits - 1)
  let waitMinutes : ℚ := min baseMinutes (24 * 60)
  fun u => if u = url then
    some { hits := hits, last_reason := reason, last_at := now,
           next_allowed_at := now + waitMinutes * 60 }
  else st u

/-- Apply a sequence of consecutive rate-limit signals at the given times. -/
def signalSeq (st : RateState) (url : Str) (reason : Str) : List ℚ → RateState
  | [] => st
  | t :: ts => signalSeq (mark_rate_limited st url t reason) url reason ts

/-- The wait, in minutes, imposed by the `n`-th consecutive signal. -/
def waitMinutesFor (n : Nat) : ℚ := min (15 * 2 ^ (n - 1)) (24 * 60)

/-- Hit count currently recorded for a URL (0 when absent). -/
def hitsOf (st : RateState) (url : Str) : Nat :=
  match st url with | some i => i.hits | none => 0

-- ------------- Key quota scheduler (enhanced_key_manager.py) -------------

/-- One credential's live quota record, with the computed next-reset date
already attached (`_calculate_next_reset_date` reads the registration-date
file and the wall clock; its result is modelled as the sortable day number
`reset_datetime` that `_parse_reset_date` produces for sorting). -/
structure KeyQuota where
  api_key : Str
  success : Bool
  account_status : Str
  total_searches_left : Int
  reset_datetime : Nat
deriving DecidableEq

/-- The `active_keys` filter shared by `get_optimal_key` and
`get_key_priority_list`. -/
def activeKeys (qs : List KeyQuota) : List KeyQuota :=
  qs.filter (fun q => q.success && q.account_status == strChars "Active")

/-- Resets-soonest order used by the scheduler sort key. -/
def resetLE (a b : KeyQuota) : Prop := a.reset_datetime ≤ b.reset_datetime

instance : DecidableRel resetLE := fun a b => Nat.decLe _ _

instance : IsTotal KeyQuota resetLE := ⟨fun a b => Nat.le_total _ _⟩

instance : IsTrans KeyQuota resetLE := ⟨fun _ _ _ => Nat.le_trans⟩

/-- `keys_with_reset.sort(key=lambda x: x['reset_datetime'])`: Python's
stable sort by next-reset date, soonest first (modelled by insertion
sort, which is also stable). -/
def sortByReset (ks : List KeyQuota) : List KeyQuota :=
  List.insertionSort resetLE ks

/-- `get_optimal_key` from enhanced_key_manager.py: among active keys
sorted by next-reset date, the first with remaining quota > 0; if none,
the soonest-resetting key; `none` when no key is active. -/
def get_optimal_key (qs : List KeyQuota) : Option Str :=
  let active := activeKeys qs
  if active.isEmpty then none
  else
    let sorted := sortByReset active
    match sorted.find? (fun k => decide (k.total_searches_left > 0)) with
    | some k => some k.api_key
    | none => sorted.head?.map KeyQuota.api_key

/-- `get_key_priority_list` from enhanced_key_manager.py: keys with
remaining quota first, then exhausted keys, each group ordered by
next-reset date. -/
def get_key_priority_list (qs : List KeyQuota) : List Str :=
  let active := activeKeys qs
  if active.isEmpty then []
  else
    let sorted := sortByReset active
    let withQ := sorted.filter (fun k => decide (k.total_searches_left > 0))
    let withoutQ := sorted.filter (fun k => decide (k.total_searches_left ≤ 0))
    (withQ ++ withoutQ).map KeyQuota.api_key

-- ------------- base64 transport decoding (aggregator_cli.py safe_b64_decode) -------------

/-- Value of a standard base64 alphabet character. -/
def b64CharVal (c : Char) : Option Nat :=
  if 'A' ≤ c ∧ c ≤ 'Z' then some (c.toNat - 65)
  else if 'a' ≤ c ∧ c ≤ 'z' then some (c.toNat - 97 + 26)
  else if '0' ≤ c ∧ c ≤ '9' then some (c.toNat - 48 + 52)
  else if c = '+' then some 62
  else if c = '/' then some 63
  else none

/-- CPython `binascii.a2b_base64` in non-strict mode (the mode used by
`base64.b64decode(..., validate=False)`): invalid characters are skipped,
a pad that completes a quad ends decoding, and a leftover partial quad at
the end is an error (`none`). State: remaining input, quad position,
pending bits, pad count, reversed output bytes. -/
def a2bBase64Aux : List Char → Nat → Nat → Nat → List Nat → Option (List Nat)
  | [], quadPos, _, _, acc => if quadPos = 0 then some acc.reverse else none
  | c :: t, quadPos, leftchar, pads, acc =>
    if c = '=' then
      if 2 ≤ quadPos then
        if 4 ≤ quadPos + (pads + 1) then some acc.reverse
        else a2bBase64Aux t quadPos leftchar (pads + 1) acc
      else a2bBase64Aux t quadPos leftchar pads acc
    else
      match b64CharVal c with
      | none => a2bBase64Aux t quadPos leftchar pads acc
      | some v =>
        match quadPos with
        | 0 => a2bBase64Aux t 1 v 0 acc
        | 1 => a2bBase64Aux t 2 (v % 16) 0 ((leftchar * 4 + v / 16) :: acc)
        | 2 => a2bBase64Aux t 3 (v % 4) 0 ((leftchar * 16 + v / 4) :: acc)
        | _ => a2bBase64Aux t 0 0 0 ((leftchar * 64 + v) :: acc)

/-- UTF-8 decoding of a byte list; `repl` is emitted for an invalid byte
(`[]` models `errors="ignore"`, a replacement character models
`errors="replace"`). A truncated final sequence yields `repl` once. -/
def utf8DecodeWith (repl : List Char) : List Nat → List Char
  | [] => []
  | b :: t =>
    if b < 0x80 then Char.ofNat b :: utf8DecodeWith repl t
    else if 0xC2 ≤ b ∧ b ≤ 0xDF then
      match t with
      | b2 :: t2 =>
        if 0x80 ≤ b2 ∧ b2 ≤ 0xBF then
          Char.ofNat ((b - 0xC0) * 64 + (b2 - 0x80)) :: utf8DecodeWith repl t2
        else repl ++ utf8DecodeWith repl (b2 :: t2)
      | [] => repl
    else if 0xE0 ≤ b ∧ b ≤ 0xEF then
      match t with
      | b2 :: b3 :: t3 =>
        if ((if b = 0xE0 then 0xA0 else 0x80) ≤ b2 ∧
            b2 ≤ (if b = 0xED then 0x9F else 0xBF) ∧
            0x80 ≤ b3 ∧ b3 ≤ 0xBF) then
          Char.ofNat ((b - 0xE0) * 4096 + (b2 - 0x80) * 64 + (b3 - 0x80)) ::
            utf8DecodeWith repl t3
        else repl ++ utf8DecodeWith repl (b2 :: b3 :: t3)
      | _ => repl
    else if 0xF0 ≤ b ∧ b ≤ 0xF4 then
      match t with
      | b2 :: b3 :: b4 :: t4 =>
        if ((if b = 0xF0 then 0x90 else 0x80) ≤ b2 ∧
            b2 ≤ (if b = 0xF4 then 0x8F else 0xBF) ∧
            0x80 ≤ b3 ∧ b3 ≤ 0xBF ∧ 0x80 ≤ b4 ∧ b4 ≤ 0xBF) then
          Char.ofNat ((b - 0xF0) * 262144 + (b2 - 0x80) * 4096 + (b3 - 0x80) * 64 +
              (b4 - 0x80)) :: utf8DecodeWith repl t4
        else repl ++ utf8DecodeWith repl (b2 :: b3 :: b4 :: t4)
      | _ => repl
    else repl ++ utf8DecodeWith repl t
termination_by l => l.length
decreasing_by
  all_goals simp [List.length_cons]
  all_goals omega

/-- `safe_b64_decode` from aggregator_cli.py: normalize padding from the
input length, reject non-ASCII input (`str.encode("ascii")` inside
`b64decode` raises), run the non-strict base64 decoder, then decode the
bytes as UTF-8 with `errors="ignore"`; any failure yields `none`. -/
def safe_b64_decode (data : Str) : Option Str :=
  let padding := 4 - data.length % 4
  let data2 := if padding < 4 then data ++ List.replicate padding '=' else data
  if data2.any (fun c => 128 ≤ c.toNat) then none
  else
    match a2bBase64Aux data2 0 0 0 [] with
    | none => none
    | some bytes => some (utf8DecodeWith [] bytes)

/-- `split_subscription_content_to_lines` from aggregator_cli.py, on the
UTF-8-decoded body text (`raw_bytes.decode("utf-8", errors="ignore")` is
the identity on the textual bodies modelled here): fast path when a
protocol prefix occurs raw; otherwise try a whole-body base64 decode; else
the empty list. -/
def split_subscription_content_to_lines (text : Str) : List Str :=
  if PROTOCOL_PREFIXES.any (fun p => containsSub p text) then
    ((splitAll '\n' (text.map (fun c => if c = '\r' then '\n' else c))).map pyStrip).filter
      (fun l => l ≠ [])
  else
    match safe_b64_decode (pyStrip text) with
    | some decoded =>
      if decoded ≠ [] ∧ PROTOCOL_PREFIXES.any (fun p => containsSub p decoded) then
        ((splitAll '\n' (decoded.map (fun c => if c = '\r' then '\n' else c))).map pyStrip).filter
          (fun l => l ≠ [])
      else []
    | none => []

-- ------------- Traffic extraction (aggregator_cli.py) -------------

/-- Floor of a rational, written with `Int.fdiv` so it computes. -/
def ratFloor (q : ℚ) : ℤ := q.num.fdiv (q.den : ℤ)

/-- Rounding to an integer with ties to even, as Python's `round` does
(applied here to `x*100` for `round(x, 2)`) on the exact value. -/
def roundHalfEven (q : ℚ) : ℤ :=
  if q - (ratFloor q : ℚ) < 1/2 then ratFloor q
  else if 1/2 < q - (ratFloor q : ℚ) then ratFloor q + 1
  else if ratFloor q % 2 = 0 then ratFloor q else ratFloor q + 1

/-- Python `round(q, 2)` on the exact rational value. -/
def round2 (q : ℚ) : ℚ := (roundHalfEven (q * 100) : ℚ) / 100

/-- `_convert_to_gb` from aggregator_cli.py. -/
def _convert_to_gb (value : ℚ) (unit : Str) : ℚ :=
  if isPrefixStr (strChars "tb") (toLowerStr unit) then value * 1024
  else if isPrefixStr (strChars "mb") (toLowerStr unit) then value / 1024
  else value

/-- Which traffic field a pattern extracts. -/
inductive TrafficKey | total | remaining | used
deriving DecidableEq

/-- One entry of the `patterns` table in `extract_traffic_info_from_text`.
The leading literal (with its regex alternatives tried in order, matched
case-insensitively as the `re.IGNORECASE` flag does), whether `\s*` may
precede the colon, whether the colon is optional, and the accepted colon
characters; every pattern then continues `\s*([0-9.]+)\s*(TB|GB|MB)?`. -/
structure TrafficPattern where
  alts : List Str
  wsBeforeColon : Bool
  colonOptional : Bool
  colonChars : List Char
  key : TrafficKey

/-- Pattern `总(?:流量|量)[:：]\s*([0-9.]+)\s*(TB|GB|MB)?`. -/
def patTotalZh : TrafficPattern :=
  { alts := [strChars "总流量", strChars "总量"], wsBeforeColon := false,
    colonOptional := false, colonChars := [':', '：'], key := TrafficKey.total }

/-- Pattern `剩余(?:流量)?[:：]\s*([0-9.]+)\s*(TB|GB|MB)?`. -/
def patRemZh : TrafficPattern :=
  { alts := [strChars "剩余流量", strChars "剩余"], wsBeforeColon := false,
    colonOptional := false, colonChars := [':', '：'], key := TrafficKey.remaining }

/-- Pattern `已用[:：]\s*([0-9.]+)\s*(TB|GB|MB)?`. -/
def patUsedZh : TrafficPattern :=
  { alts := [strChars "已用"], wsBeforeColon := false,
    colonOptional := false, colonChars := [':', '：'], key := TrafficKey.used }

/-- Pattern `Total\s*:?\s*([0-9.]+)\s*(TB|GB|MB)?` (IGNORECASE). -/
def patTotalEn : TrafficPattern :=
  { alts := [strChars "total"], wsBeforeColon := true,
    colonOptional := true, colonChars := [':'], key := TrafficKey.total }

/-- Pattern `Remaining\s*:?\s*([0-9.]+)\s*(TB|GB|MB)?` (IGNORECASE). -/
def patRemEn : TrafficPattern :=
  { alts := [strChars "remaining"], wsBeforeColon := true,
    colonOptional := true, colonChars := [':'], key := TrafficKey.remaining }

/-- Pattern `Used\s*:?\s*([0-9.]+)\s*(TB|GB|MB)?` (IGNORECASE). -/
def patUsedEn : TrafficPattern :=
  { alts := [strChars "used"], wsBeforeColon := true,
    colonOptional := true, colonChars := [':'], key := TrafficKey.used }

/-- The six regex patterns of `extract_traffic_info_from_text`, in order. -/
def trafficPatterns : List TrafficPattern :=
  [patTotalZh, patRemZh, patUsedZh, patTotalEn, patRemEn, patUsedEn]

/-- Match a literal case-insensitively at the head, returning the rest. -/
def matchLitCaseless (lit : Str) : Str → Option Str
  | s => if toLowerStr (s.take lit.length) = lit ∧ lit.length ≤ s.length
         then some (s.drop lit.length) else none

/-- The continuation after the leading literal of a traffic pattern:
`(\s*)? :?/[:：] \s* ([0-9.]+) \s* (TB|GB|MB)?`. -/
def matchTrafficTail (p : TrafficPattern) (rest0 : Str) : Option (Str × Option Str) :=
  let rest1 := if p.wsBeforeColon then rest0.dropWhile isPySpace else rest0
  let rest2? : Option Str :=
    match rest1 with
    | c :: t => if c ∈ p.colonChars then some t
                else if p.colonOptional then some rest1 else none
    | [] => if p.colonOptional then some [] else none
  rest2?.bind (fun rest2 =>
    let rest3 := rest2.dropWhile isPySpace
    let digits := rest3.takeWhile (fun c => isAsciiDigit c || c == '.')
    if digits = [] then none
    else
      let rest5 := (rest3.dropWhile (fun c => isAsciiDigit c || c == '.')).dropWhile isPySpace
      let unit? : Option Str :=
        match matchLitCaseless (strChars "tb") rest5 with
        | some _ => some (rest5.take 2)
        | none =>
          match matchLitCaseless (strChars "gb") rest5 with
          | some _ => some (rest5.take 2)
          | none =>
            match matchLitCaseless (strChars "mb") rest5 with
            | some _ => some (rest5.take 2)
            | none => none
      some (digits, unit?))

/-- Match one traffic pattern at the current position, returning regex
groups 1 (the `[0-9.]+` digits) and 2 (the unit as written, if present).
Literal alternatives are tried in order with the full continuation, as
regex alternation backtracking does. -/
def matchTrafficAt (p : TrafficPattern) (s : Str) : Option (Str × Option Str) :=
  p.alts.foldr
    (fun a acc =>
      match matchLitCaseless a s with
      | some r =>
        (match matchTrafficTail p r with
         | some x => some x
         | none => acc)
      | none => acc)
    none

/-- `re.search` for a traffic pattern: leftmost position wins. -/
def reSearchTraffic (p : TrafficPattern) : Str → Option (Str × Option Str)
  | [] => none
  | c :: t =>
    match matchTrafficAt p (c :: t) with
    | some r => some r
    | none => reSearchTraffic p t

/-- Value of a digit string as a natural number (in ℚ). -/
def natOfDigits (ds : Str) : ℚ := ds.foldl (fun acc c => acc * 10 + (c.toNat - 48 : ℚ)) 0

/-- Python `float()` on a `[0-9.]+` group: at most one dot, at least one
digit; otherwise a `ValueError` would be raised (`none`). -/
def parsePyFloat (s : Str) : Option ℚ :=
  if s.count '.' ≤ 1 ∧ s.any isAsciiDigit then
    let ip := s.takeWhile isAsciiDigit
    match s.dropWhile isAsciiDigit with
    | [] => some (natOfDigits ip)
    | _ :: fracs => some (natOfDigits ip + natOfDigits fracs / 10 ^ fracs.length)
  else none

/-- The partial traffic record built by `extract_traffic_info_from_text`. -/
structure TrafficInfo where
  total_traffic : Option ℚ
  remaining_traffic : Option ℚ
  used_traffic : Option ℚ
  traffic_unit : Option Str
deriving DecidableEq

/-- The empty `info` dictionary. -/
def emptyTrafficInfo : TrafficInfo := ⟨none, none, none, none⟩

/-- Store an extracted value under its key and set the unit to GB. -/
def setTrafficKey (info : TrafficInfo) (k : TrafficKey) (v : ℚ) : TrafficInfo :=
  match k with
  | TrafficKey.total => { info with total_traffic := some v, traffic_unit := some (strChars "GB") }
  | TrafficKey.remaining =>
      { info with remaining_traffic := some v, traffic_unit := some (strChars "GB") }
  | TrafficKey.used => { info with used_traffic := some v, traffic_unit := some (strChars "GB") }

/-- The pattern loop of `extract_traffic_info_from_text`; the Bool is true
when `float()` raised, in which case the surrounding `try` returns the
info built so far without running the derivation step. -/
def scanTrafficPatterns (text : Str) : TrafficInfo → List TrafficPattern → TrafficInfo × Bool
  | info, [] => (info, false)
  | info, p :: ps =>
    match reSearchTraffic p text with
    | none => scanTrafficPatterns text info ps
    | some (g1, g2) =>
      match parsePyFloat g1 with
      | none => (info, true)
      | some val =>
        let unit := match g2 with | some u => u | none => strChars "GB"
        let gb := round2 (_convert_to_gb val unit)
        scanTrafficPatterns text (setTrafficKey info p.key gb) ps

/-- The pattern scan over the whole pattern table. -/
def scanTraffic (text : Str) : TrafficInfo × Bool :=
  scanTrafficPatterns text emptyTrafficInfo trafficPatterns

/-- The two derivation conditionals at the end of
`extract_traffic_info_from_text`: fill `used` from total/remaining, then
`remaining` from total/used; `total` is never derived. -/
def deriveMissingTraffic (info : TrafficInfo) : TrafficInfo :=
  let info1 :=
    match info.total_traffic, info.remaining_traffic, info.used_traffic with
    | some t, some r, none => { info with used_traffic := some (round2 (t - r)) }
    | _, _, _ => info
  match info1.total_traffic, info1.used_traffic, info1.remaining_traffic with
  | some t, some u, none => { info1 with remaining_traffic := some (round2 (t - u)) }
  | _, _, _ => info1

/-- `extract_traffic_info_from_text` from aggregator_cli.py. -/
def extract_traffic_info_from_text (text : Str) : TrafficInfo :=
  let s := scanTraffic text
  if s.2 then s.1 else deriveMissingTraffic s.1

-- ------------- URL normalizer (aggregator_cli.py normalize_subscribe_url) -------------

/-- Replace an invalid or out-of-range numeric character reference with
U+FFFD, as `html.unescape` does (the Windows-1252 remapping of a few
control references is simplified to U+FFFD as well). -/
def charFromCodepoint (n : Nat) : Char :=
  if n = 0 ∨ (0xD800 ≤ n ∧ n ≤ 0xDFFF) ∨ 0x10FFFF < n then Char.ofNat 0xFFFD
  else Char.ofNat n

/-- Hexadecimal digit value. -/
def hexDigitVal (c : Char) : Option Nat :=
  if 48 ≤ c.toNat ∧ c.toNat ≤ 57 then some (c.toNat - 48)
  else if 97 ≤ c.toNat ∧ c.toNat ≤ 102 then some (c.toNat - 87)
  else if 65 ≤ c.toNat ∧ c.toNat ≤ 70 then some (c.toNat - 55)
  else none

/-- Value of a hexadecimal digit string. -/
def hexToNat (ds : Str) : Nat := ds.foldl (fun acc c => acc * 16 + (hexDigitVal c).getD 0) 0

/-- Value of a decimal digit string. -/
def decToNat (ds : Str) : Nat := ds.foldl (fun acc c => acc * 10 + (c.toNat - 48)) 0

/-- The html5 named-reference table of `html.unescape`, restricted to the
references relevant to URL text (`&amp;` etc., with their semicolon-less
legacy forms); the full CPython table has more names but the same lookup
discipline. -/
def htmlEntityTable : List (Str × Str) :=
  [(strChars "amp;", strChars "&"), (strChars "amp", strChars "&"),
   (strChars "lt;", strChars "<"), (strChars "lt", strChars "<"),
   (strChars "gt;", strChars ">"), (strChars "gt", strChars ">"),
   (strChars "quot;", [Char.ofNat 34]), (strChars "quot", [Char.ofNat 34]),
   (strChars "nbsp;", [Char.ofNat 160]), (strChars "nbsp", [Char.ofNat 160])]

/-- Lookup in the named-reference table. -/
def entityLookup (s : Str) : Option Str :=
  (htmlEntityTable.find? (fun e => e.1 == s)).map Prod.snd

/-- The prefix-retry loop of `html._replace_charref`: try ever shorter
prefixes of the candidate name, down to length 2. -/
def namedRefLoop (s : Str) : Nat → Str
  | 0 => '&' :: s
  | 1 => '&' :: s
  | x + 2 =>
    match entityLookup (s.take (x + 2)) with
    | some r => r ++ s.drop (x + 2)
    | none => namedRefLoop s (x + 1)

/-- `html._replace_charref` for a named reference candidate. -/
def replaceNamedRef (s : Str) : Str :=
  match entityLookup s with
  | some r => r
  | none => namedRefLoop s (s.length - 1)

/-- The character class `[^\t\n\f <&#;]` of the charref regex. -/
def isCharrefNameChar (c : Char) : Bool :=
  !(c == '\t' || c == '\n' || c == Char.ofNat 12 || c == ' ' ||
    c == '<' || c == '&' || c == '#' || c == ';')

/-- One pass of `html.unescape` (`re.sub` with `_replace_charref`): at
each `&`, match `#[0-9]+;?`, `#[xX][0-9a-fA-F]+;?` or up to 32 name
characters plus an optional `;`; replacements are not rescanned. The fuel
starts at the input length; every step consumes at least one character,
so it never runs out. -/
def unescapeAux : Nat → Str → Str
  | 0, s => s
  | _ + 1, [] => []
  | fuel + 1, c :: rest =>
    if c = '&' then
      match rest with
      | '#' :: r2 =>
        (match r2 with
         | x :: r3 =>
           if x = 'x' ∨ x = 'X' then
             (if hr : (r3.takeWhile (fun d => (hexDigitVal d).isSome)) = [] then
               '&' :: unescapeAux fuel rest
             else
               charFromCodepoint (hexToNat (r3.takeWhile (fun d => (hexDigitVal d).isSome))) ::
                 unescapeAux fuel
                   (match r3.drop (r3.takeWhile (fun d => (hexDigitVal d).isSome)).length with
                    | ';' :: t => t
                    | r4 => r4))
           else
             (if hd : (r2.takeWhile isAsciiDigit) = [] then
               '&' :: unescapeAux fuel rest
             else
               charFromCodepoint (decToNat (r2.takeWhile isAsciiDigit)) ::
                 unescapeAux fuel
                   (match r2.drop (r2.takeWhile isAsciiDigit).length with
                    | ';' :: t => t
                    | r4 => r4))
         | [] => '&' :: unescapeAux fuel rest)
      | _ =>
        (if hn : ((rest.takeWhile isCharrefNameChar).take 32) = [] then
          '&' :: unescapeAux fuel rest
        else
          match rest.drop ((rest.takeWhile isCharrefNameChar).take 32).length with
          | ';' :: r3 =>
            replaceNamedRef ((rest.takeWhile isCharrefNameChar).take 32 ++ [';']) ++
              unescapeAux fuel r3
          | r2 =>
            replaceNamedRef ((rest.takeWhile isCharrefNameChar).take 32) ++
              unescapeAux fuel r2)
    else c :: unescapeAux fuel rest

/-- `html.unescape`. -/
def unescapeHtml (s : Str) : Str := unescapeAux s.length s

/-- The `safe_chars` set of `normalize_subscribe_url` (ASCII letters,
digits, and the listed punctuation, including the apostrophe). -/
def isSafeChar (c : Char) : Bool :=
  isAsciiAlnum c || (strChars "-._~:/?#[]@!$&()*+,;=%").contains c || c == Char.ofNat 39

/-- `scheme_chars` of urllib.parse. -/
def schemeChar (c : Char) : Bool :=
  isAsciiAlnum c || c == '+' || c == '-' || c == '.'

/-- The scheme split of `urlsplit`: the part before the first `:` must
start with an ASCII letter and consist of scheme characters; the scheme
is lowercased. -/
def matchScheme (url : Str) : Str × Str :=
  match splitFirst ':' url with
  | some (pre, post) =>
    if (match pre with | c :: _ => isAsciiAlpha c | [] => false) && pre.all schemeChar
    then (toLowerStr pre, post)
    else ([], url)
  | none => ([], url)

/-- Characters that do not end the netloc. -/
def notNetlocEnd (c : Char) : Bool := !(c == '/' || c == '?' || c == '#')

/-- The netloc split of `urlsplit`: after `//`, up to the first `/`, `?`
or `#`. -/
def splitNetloc (rest : Str) : Str × Str :=
  if isPrefixStr (strChars "//") rest = true then
    ((rest.drop 2).takeWhile notNetlocEnd, (rest.drop 2).dropWhile notNetlocEnd)
  else ([], rest)

/-- The fragment split of `urlsplit` (first `#`). -/
def splitFragment (rest : Str) : Str × Str :=
  match splitFirst '#' rest with
  | some (a, b) => (a, b)
  | none => (rest, [])

/-- The query split of `urlsplit` (first `?` after the fragment split). -/
def splitQuery (rest : Str) : Str × Str :=
  match splitFirst '?' rest with
  | some (a, b) => (a, b)
  | none => (rest, [])

/-- `urllib.parse._splitparams`: split at the first `;` of the last path
segment. -/
def splitParamsPy (p : Str) : Str × Str :=
  match splitFirst ';' ((p.reverse.takeWhile (fun c => !(c == '/'))).reverse) with
  | none => (p, [])
  | some (a, b) =>
    (p.take (p.length - ((p.reverse.takeWhile (fun c => !(c == '/'))).reverse).length) ++ a, b)

/-- The components of `urlparse` used by the normalizer. -/
structure UrlParts where
  scheme : Str
  netloc : Str
  path : Str
  params : Str
  query : Str
  fragment : Str
deriving DecidableEq

/-- `urllib.parse.urlparse` (scheme, netloc, fragment, query, params
splits, in urlsplit's order). -/
def urlparsePy (url : Str) : UrlParts :=
  ⟨(matchScheme url).1,
   (splitNetloc (matchScheme url).2).1,
   (splitParamsPy (splitQuery (splitFragment (splitNetloc (matchScheme url).2).2).1).1).1,
   (splitParamsPy (splitQuery (splitFragment (splitNetloc (matchScheme url).2).2).1).1).2,
   (splitQuery (splitFragment (splitNetloc (matchScheme url).2).2).1).2,
   (splitFragment (splitNetloc (matchScheme url).2).2).2⟩

/-- Collect a maximal run of `%hh` byte escapes (the byte accumulation of
`urllib.parse.unquote`). -/
def collectPctBytes : Str → List Nat × Str
  | '%' :: a :: b :: t =>
    (match hexDigitVal a, hexDigitVal b with
     | some ha, some hb => ((ha * 16 + hb) :: (collectPctBytes t).1, (collectPctBytes t).2)
     | _, _ => ([], '%' :: a :: b :: t))
  | s => ([], s)

/-- `urllib.parse.unquote_plus`: `+` becomes a space; runs of `%hh`
escapes are decoded as UTF-8 with `errors="replace"`; malformed escapes
stay literal. -/
def unquotePlusGo : Nat → Str → Str
  | 0, s => s
  | _ + 1, [] => []
  | fuel + 1, c :: t =>
    if c = '+' then ' ' :: unquotePlusGo fuel t
    else if c = '%' then
      (if hp : (collectPctBytes (c :: t)).1 = [] then '%' :: unquotePlusGo fuel t
       else utf8DecodeWith [Char.ofNat 0xFFFD] (collectPctBytes (c :: t)).1 ++
         unquotePlusGo fuel (collectPctBytes (c :: t)).2)
    else c :: unquotePlusGo fuel t

/-- `unquote_plus` with sufficient fuel. -/
def unquote_plus (s : Str) : Str := unquotePlusGo s.length s

/-- `urllib.parse.parse_qsl` with `keep_blank_values=False`: split on `&`,
keep only `name=value` pairs with a non-empty value, unquoting both. -/
def parse_qsl (q : Str) : List (Str × Str) :=
  (splitAll '&' q).foldr
    (fun nv acc =>
      match splitFirst '=' nv with
      | none => acc
      | some (n, v) => if v = [] then acc else (unquote_plus n, unquote_plus v) :: acc) []

/-- `parse_qs(q).get(key, [])`: the values listed under one key. -/
def parse_qs_get (q key : Str) : List Str :=
  (parse_qsl q).filterMap (fun p => if p.1 = key then some p.2 else none)

/-- The always-safe characters of `urllib.parse.quote`. -/
def alwaysSafeChar (c : Char) : Bool :=
  isAsciiAlnum c || c == '_' || c == '.' || c == '-' || c == '~'

/-- Upper-case hex digit of a nibble. -/
def pctHexDigit (n : Nat) : Char := if n < 10 then Char.ofNat (48 + n) else Char.ofNat (55 + n)

/-- UTF-8 encoding of one character. -/
def utf8EncodeChar (c : Char) : List Nat :=
  if c.toNat < 0x80 then [c.toNat]
  else if c.toNat < 0x800 then [0xC0 + c.toNat / 64, 0x80 + c.toNat % 64]
  else if c.toNat < 0x10000 then
    [0xE0 + c.toNat / 4096, 0x80 + (c.toNat / 64) % 64, 0x80 + c.toNat % 64]
  else
    [0xF0 + c.toNat / 262144, 0x80 + (c.toNat / 4096) % 64, 0x80 + (c.toNat / 64) % 64,
     0x80 + c.toNat % 64]

/-- `urllib.parse.quote_plus` on one character. -/
def quotePlusChar (c : Char) : Str :=
  if alwaysSafeChar c then [c]
  else if c = ' ' then ['+']
  else (utf8EncodeChar c).foldr
    (fun b acc => '%' :: pctHexDigit (b / 16) :: pctHexDigit (b % 16) :: acc) []

/-- `urllib.parse.quote_plus`. -/
def quote_plus (s : Str) : Str := s.foldr (fun c acc => quotePlusChar c ++ acc) []

/-- `urlencode(out_qs)` for the token-and-optional-flag dictionary the
normalizer builds (Python dicts preserve insertion order: token first). -/
def urlencodeTokenFlag (token : Str) (flag : Option Str) : Str :=
  strChars "token=" ++ quote_plus token ++
    (match flag with
     | some f => strChars "&flag=" ++ quote_plus f
     | none => [])

/-- The netloc/path portion of `urllib.parse.urlunsplit`. -/
def urlunparseNetpath (netloc path : Str) : Str :=
  if netloc ≠ [] ∨ isPrefixStr (strChars "//") path = true then
    strChars "//" ++ netloc ++
      (if path ≠ [] ∧ isPrefixStr (strChars "/") path = false then '/' :: path else path)
  else path

/-- `urlunparse((scheme, netloc, path, "", query, ""))` as the normalizer
calls it (empty params and fragment). -/
def urlunparsePy (scheme netloc path query : Str) : Str :=
  (if scheme ≠ [] then scheme ++ ':' :: urlunparseNetpath netloc path
   else urlunparseNetpath netloc path) ++
    (if query ≠ [] then '?' :: query else [])

/-- The subscription-endpoint path marker. -/
def markerStr : Str := strChars "api/v1/client/subscribe"

/-- The optional `flag` output parameter: kept only when present and
alphanumeric. -/
def flagOutOf (q : Str) : Option Str :=
  match parse_qs_get q (strChars "flag") with
  | [] => none
  | f :: _ => if f ≠ [] ∧ f.all isAsciiAlnum = true then some f else none

/-- The component checks and rebuild of `normalize_subscribe_url`, after
unescaping, trimming and parsing. -/
def normCoreUrl (pu : UrlParts) : Option Str :=
  if pu.scheme = [] ∨ pu.netloc = [] then none
  else if containsSub markerStr pu.path = false then none
  else if (containsSub (strChars "xxxx") (toLowerStr pu.netloc) ||
           containsSub (strChars "your-provider.com") (toLowerStr pu.netloc)) = true then none
  else
    match parse_qs_get pu.query (strChars "token") with
    | [] => none
    | token :: _ =>
      if token = [] ∨ token.all isAsciiAlnum = false then none
      else if toLowerStr token = strChars "xxxx" then none
      else
        some (urlunparsePy pu.scheme pu.netloc pu.path
          (urlencodeTokenFlag token (flagOutOf pu.query)))

/-- `normalize_subscribe_url` from aggregator_cli.py: HTML-unescape the
stripped input, trim at the first non-URL character, parse, validate
(endpoint marker, placeholder host/token, alphanumeric token) and rebuild
with only the allow-listed query keys. -/
def normalize_subscribe_url (raw : Str) : Option Str :=
  if raw = [] then none
  else normCoreUrl (urlparsePy ((unescapeHtml (pyStrip raw)).takeWhile isSafeChar))

-- ------------- Availability refinement (aggregator_cli.py main) -------------

/-- The node lines one source contributes (decode then per-line
normalization), as in the fetch loops of `main`. -/
def sourceNodes (body : Str) : List Str :=
  (split_subscription_content_to_lines body).filterMap normalize_node_line

/-- `nodes_total` for one source in `main`: the count of decoded lines
whose `classify_protocol` lands in the six-protocol counter table. -/
def nodesTotalOf (body : Str) : Nat :=
  (split_subscription_content_to_lines body).countP (fun l => (classify_protocol l).isSome)

/-- `over_quota_hint` in `main`: a rate-limit phrase occurs in the
lowercased 4000-character preview of the body. -/
def overQuotaHint (body : Str) : Bool :=
  RATE_LIMIT_BODY_HINTS.any (fun h => containsSub h (toLowerStr (body.take 4000)))

/-- `is_depleted` in `main`: the extracted remaining traffic is ≤ 0. -/
def depletedOf (body : Str) : Bool :=
  match (extract_traffic_info_from_text (body.take 4000)).remaining_traffic with
  | some r => decide (r ≤ 0)
  | none => false

/-- The availability refinement of `main` (lines 1526–1614): a fetched
source (`fetch u = some body` models an HTTP 200 response with a body)
stays available unless zero nodes decode, a rate-limit phrase occurs, or
the remaining quota is depleted; a failed fetch is unavailable. -/
def sourceAvailable (fetched : Option Str) : Bool :=
  match fetched with
  | none => false
  | some body => !(nodesTotalOf body == 0 || overQuotaHint body || depletedOf body)

/-- `refined_alive_urls` in `main`: only sources whose metadata stayed
available. -/
def refinedAliveUrls (urls : List Str) (fetch : Str → Option Str) : List Str :=
  urls.filter (fun u => sourceAvailable (fetch u))

/-- The `verified_nodes` collection loop in `main`: nodes are re-fetched
only from the refined alive list (skipping backed-off URLs), before dedup
and capping. -/
def verifiedNodesRaw (urls : List Str) (fetch : Str → Option Str)
    (st : RateState) (now : ℚ) : List Str :=
  ((refinedAliveUrls urls fetch).map (fun u =>
    if should_skip_due_to_backoff st u now then []
    else
      match fetch u with
      | none => []
      | some body => sourceNodes body)).flatten

/-- The spec's scenario credential A: remaining = 0, resets in 3 days. -/
def scenarioKeyA : KeyQuota :=
  { api_key := strChars "KEYA", success := true, account_status := strChars "Active",
    total_searches_left := 0, reset_datetime := 3 }

/-- The spec's scenario credential B: remaining = 50, resets in 20 days. -/
def scenarioKeyB : KeyQuota :=
  { api_key := strChars "KEYB", success := true, account_status := strChars "Active",
    total_searches_left := 50, reset_datetime := 20 }

-- ===================== Theorems =====================

section DedupLemmas

variable {α : Type} [DecidableEq α]

theorem dictFromKeysAux_mem (l : List α) :
    ∀ (seen : List α) (a : α), a ∈ dictFromKeysAux seen l ↔ a ∈ l ∧ a ∉ seen := by
  induction l with
  | nil => intro seen a; simp [dictFromKeysAux]
  | cons b t ih =>
    intro seen a
    by_cases hb : b ∈ seen
    · rw [dictFromKeysAux, if_pos hb, ih]
      constructor
      · rintro ⟨hat, hns⟩; exact ⟨List.mem_cons_of_mem _ hat, hns⟩
      · rintro ⟨hat, hns⟩
        rcases List.mem_cons.mp hat with h | h
        · exact absurd (h ▸ hb) hns
        · exact ⟨h, hns⟩
    · rw [dictFromKeysAux, if_neg hb]
      constructor
      · intro h
        rcases List.mem_cons.mp h with h | h
        · exact ⟨h ▸ List.mem_cons_self _ _, h ▸ hb⟩
        · rcases (ih _ _).mp h with ⟨hat, hns⟩
          refine ⟨List.mem_cons_of_mem _ hat, fun hs => hns (List.mem_cons_of_mem _ hs)⟩
      · rintro ⟨hat, hns⟩
        rcases List.mem_cons.mp hat with h | h
        · exact h ▸ List.mem_cons_self _ _
        · by_cases hab : a = b
          · exact hab ▸ List.mem_cons_self _ _
          · exact List.mem_cons_of_mem _ ((ih _ _).mpr
              ⟨h, fun hs => (List.mem_cons.mp hs).elim hab hns⟩)

theorem dictFromKeysAux_sublist (l : List α) :
    ∀ seen : List α, (dictFromKeysAux seen l).Sublist l := by
  induction l with
  | nil => intro seen; simp [dictFromKeysAux]
  | cons b t ih =>
    intro seen
    rw [dictFromKeysAux]
    by_cases hb : b ∈ seen
    · rw [if_pos hb]; exact (ih seen).cons b
    · rw [if_neg hb]; exact (ih (b :: seen)).cons₂ b

theorem dictFromKeysAux_nodup (l : List α) :
    ∀ seen : List α, (dictFromKeysAux seen l).Nodup := by
  induction l with
  | nil => intro seen; simp [dictFromKeysAux]
  | cons b t ih =>
    intro seen
    rw [dictFromKeysAux]
    by_cases hb : b ∈ seen
    · rw [if_pos hb]; exact ih seen
    · rw [if_neg hb]
      refine List.nodup_cons.mpr ⟨fun hmem => ?_, ih _⟩
      exact ((dictFromKeysAux_mem t _ b).mp hmem).2 (List.mem_cons_self _ _)

theorem dictFromKeysAux_of_nodup (l : List α) :
    ∀ seen : List α, l.Nodup → (∀ x ∈ l, x ∉ seen) → dictFromKeysAux seen l = l := by
  induction l with
  | nil => intro seen _ _; simp [dictFromKeysAux]
  | cons b t ih =>
    intro seen hnd hdisj
    rw [dictFromKeysAux, if_neg (hdisj b (List.mem_cons_self _ _))]
    have hnd' := List.nodup_cons.mp hnd
    congr 1
    refine ih _ hnd'.2 (fun x hx => ?_)
    intro hsx
    rcases List.mem_cons.mp hsx with h | h
    · exact hnd'.1 (h ▸ hx)
    · exact hdisj x (List.mem_cons_of_mem _ hx) h

theorem dictFromKeysAux_eq_firstOccurrencesAux (l : List α) :
    ∀ (seen pre : List α), (∀ x, x ∈ seen ↔ x ∈ pre) →
      dictFromKeysAux seen l = firstOccurrencesAux pre l := by
  induction l with
  | nil => intro seen pre _; simp [dictFromKeysAux, firstOccurrencesAux]
  | cons b t ih =>
    intro seen pre hiff
    rw [dictFromKeysAux, firstOccurrencesAux]
    have hnext : ∀ x, x ∈ b :: seen ↔ x ∈ pre ++ [b] := by
      intro x
      simp only [List.mem_cons, List.mem_append, List.mem_singleton, hiff x]
      tauto
    by_cases hb : b ∈ seen
    · rw [if_pos hb, if_pos ((hiff b).mp hb)]
      refine ih _ _ (fun x => ?_)
      simp only [hiff x, List.mem_append, List.mem_singleton]
      constructor
      · exact fun h => Or.inl h
      · rintro (h | h)
        · exact h
        · exact h ▸ (hiff b).mp hb
    · rw [if_neg hb, if_neg (fun h => hb ((hiff b).mpr h))]
      exact congrArg (b :: ·) (ih _ _ hnext)

end DedupLemmas

example : pyDedup [1, 2, 1, 3, 2] = [1, 2, 3] := by decide

/-- C6: node-line deduplication (`list(dict.fromkeys(...))`) keeps the
first occurrence of each distinct line in order (it equals the spec-side
`firstOccurrences`, is a subsequence of the input, and is duplicate-free),
is idempotent, and the configured cap truncates deterministically to the
earliest entries (`capMax` is an initial segment, `take`). -/
theorem claim_C6_dedup_first_seen_order_idempotent_cap :
    ∀ (l : List Str) (m : Nat),
      pyDedup (pyDedup l) = pyDedup l ∧
      pyDedup l = firstOccurrences l ∧
      (pyDedup l).Sublist l ∧
      (pyDedup l).Nodup ∧
      (∀ a, a ∈ pyDedup l ↔ a ∈ l) ∧
      capMax m l = l.take (if m = 0 then l.length else min m l.length) := by
  intro l m
  refine ⟨?_, ?_, ?_, ?_, ?_, ?_⟩
  · exact dictFromKeysAux_of_nodup _ _ (dictFromKeysAux_nodup l [])
      (fun x _ => List.not_mem_nil x)
  · exact dictFromKeysAux_eq_firstOccurrencesAux l [] [] (fun x => Iff.rfl)
  · exact dictFromKeysAux_sublist l []
  · exact dictFromKeysAux_nodup l []
  · intro a
    rw [pyDedup, dictFromKeysAux_mem]
    simp
  · by_cases hm : m = 0
    · subst hm
      rw [capMax, if_neg (by simp), if_pos rfl, List.take_length]
    · rw [if_neg hm]
      by_cases hlen : l.length > m
      · rw [capMax, if_pos ⟨hm, hlen⟩, min_eq_left (Nat.le_of_lt hlen)]
      · rw [capMax, if_neg (fun h => hlen h.2),
          min_eq_right (Nat.le_of_not_lt hlen), List.take_length]

section TrafficLemmas

theorem roundHalfEven_intCast (k : ℤ) : roundHalfEven (k : ℚ) = k := by
  have hf : ratFloor (k : ℚ) = k := by
    rw [ratFloor, Rat.num_intCast, Rat.den_intCast]
    simpa using Int.fdiv_one k
  rw [roundHalfEven, hf]
  norm_num

theorem round2_eq_self (x : ℚ) (k : ℤ) (h : x * 100 = (k : ℚ)) : round2 x = x := by
  rw [round2, h, roundHalfEven_intCast]
  rw [div_eq_iff (by norm_num : (100 : ℚ) ≠ 0)]
  linarith

theorem round2_mul100_int (x : ℚ) : ∃ k : ℤ, round2 x * 100 = (k : ℚ) := by
  refine ⟨roundHalfEven (x * 100), ?_⟩
  rw [round2]
  field_simp

theorem setTrafficKey_2dp (it ir iu : Option ℚ) (iun : Option Str) (k : TrafficKey) (w : ℚ)
    (ht : ∀ v, it = some v → ∃ n : ℤ, v * 100 = (n : ℚ))
    (hr : ∀ v, ir = some v → ∃ n : ℤ, v * 100 = (n : ℚ))
    (hu : ∀ v, iu = some v → ∃ n : ℤ, v * 100 = (n : ℚ))
    (hw : ∃ n : ℤ, w * 100 = (n : ℚ)) :
    (∀ v, (setTrafficKey ⟨it, ir, iu, iun⟩ k w).total_traffic = some v →
      ∃ n : ℤ, v * 100 = (n : ℚ)) ∧
    (∀ v, (setTrafficKey ⟨it, ir, iu, iun⟩ k w).remaining_traffic = some v →
      ∃ n : ℤ, v * 100 = (n : ℚ)) ∧
    (∀ v, (setTrafficKey ⟨it, ir, iu, iun⟩ k w).used_traffic = some v →
      ∃ n : ℤ, v * 100 = (n : ℚ)) := by
  cases k <;> refine ⟨?_, ?_, ?_⟩ <;> intro v hv <;>
    simp only [setTrafficKey] at hv <;>
    first
      | (cases hv; exact hw)
      | exact ht v hv
      | exact hr v hv
      | exact hu v hv

theorem scanTrafficPatterns_cons_none (text : Str) (info : TrafficInfo)
    (p : TrafficPattern) (ps : List TrafficPattern)
    (h : reSearchTraffic p text = none) :
    scanTrafficPatterns text info (p :: ps) = scanTrafficPatterns text info ps := by
  rw [scanTrafficPatterns]
  simp only [h]

theorem scanTrafficPatterns_cons_badfloat (text : Str) (info : TrafficInfo)
    (p : TrafficPattern) (ps : List TrafficPattern) (g1 : Str) (g2 : Option Str)
    (h : reSearchTraffic p text = some (g1, g2)) (h2 : parsePyFloat g1 = none) :
    scanTrafficPatterns text info (p :: ps) = (info, true) := by
  rw [scanTrafficPatterns]
  simp only [h, h2]

theorem scanTrafficPatterns_cons_some (text : Str) (info : TrafficInfo)
    (p : TrafficPattern) (ps : List TrafficPattern) (g1 : Str) (g2 : Option Str) (val : ℚ)
    (h : reSearchTraffic p text = some (g1, g2)) (h2 : parsePyFloat g1 = some val) :
    scanTrafficPatterns text info (p :: ps) =
      scanTrafficPatterns text
        (setTrafficKey info p.key (round2 (_convert_to_gb val
          (g2.getD (strChars "GB"))))) ps := by
  rw [scanTrafficPatterns]
  simp only [h, h2]
  cases g2 <;> rfl

/-- All stored traffic values are exact 2-decimal quantities. -/
theorem scanTrafficPatterns_2dp (text : Str) (ps : List TrafficPattern) :
    ∀ info : TrafficInfo,
      ((∀ v, info.total_traffic = some v → ∃ k : ℤ, v * 100 = (k : ℚ)) ∧
       (∀ v, info.remaining_traffic = some v → ∃ k : ℤ, v * 100 = (k : ℚ)) ∧
       (∀ v, info.used_traffic = some v → ∃ k : ℤ, v * 100 = (k : ℚ))) →
      ((∀ v, (scanTrafficPatterns text info ps).1.total_traffic = some v →
          ∃ k : ℤ, v * 100 = (k : ℚ)) ∧
       (∀ v, (scanTrafficPatterns text info ps).1.remaining_traffic = some v →
          ∃ k : ℤ, v * 100 = (k : ℚ)) ∧
       (∀ v, (scanTrafficPatterns text info ps).1.used_traffic = some v →
          ∃ k : ℤ, v * 100 = (k : ℚ))) := by
  induction ps with
  | nil => intro info h; exact h
  | cons p ps ih =>
    intro info h
    obtain ⟨it, ir, iu, iun⟩ := info
    cases hr : reSearchTraffic p text with
    | none =>
      rw [scanTrafficPatterns_cons_none text _ p ps hr]
      exact ih _ h
    | some g =>
      obtain ⟨g1, g2⟩ := g
      cases hg : parsePyFloat g1 with
      | none =>
        rw [scanTrafficPatterns_cons_badfloat text _ p ps g1 g2 hr hg]
        exact h
      | some val =>
        rw [scanTrafficPatterns_cons_some text _ p ps g1 g2 val hr hg]
        refine ih _ ?_
        rcases h with ⟨ht, hrm, hu⟩
        exact setTrafficKey_2dp it ir iu iun p.key _ ht hrm hu (round2_mul100_int _)

theorem scanTraffic_2dp (text : Str) :
    (∀ v, (scanTraffic text).1.total_traffic = some v → ∃ k : ℤ, v * 100 = (k : ℚ)) ∧
    (∀ v, (scanTraffic text).1.remaining_traffic = some v → ∃ k : ℤ, v * 100 = (k : ℚ)) ∧
    (∀ v, (scanTraffic text).1.used_traffic = some v → ∃ k : ℤ, v * 100 = (k : ℚ)) := by
  refine scanTrafficPatterns_2dp text trafficPatterns emptyTrafficInfo ?_
  refine ⟨?_, ?_, ?_⟩ <;> intro v hv <;> cases hv

theorem extract_of_scan_false (text : Str) (h : (scanTraffic text).2 = false) :
    extract_traffic_info_from_text text = deriveMissingTraffic (scanTraffic text).1 := by
  rw [extract_traffic_info_from_text]
  simp only [h, Bool.false_eq_true, if_false]

end TrafficLemmas

/-- C2 (amended): when the pattern scan completes without a `float()`
error (the scan flag is false; a malformed captured number such as
`1.2.3` raises inside the `try` and returns the partial result with no
derivation, see `claim_C2_counterexample`) and extraction resolves
exactly two of {total, used, remaining} with `total` among them, the
derivation step fills in the third so that `total = used + remaining`
holds exactly (the stored values are exact 2-decimal quantities, so the
rounding in the derivation is the identity), and values already present
are never overwritten; when `total` itself is the missing one it is not
derived (the code only derives `used` and `remaining`). -/
theorem claim_C2_traffic_identity_fill :
    ∀ text : Str, (scanTraffic text).2 = false →
      (∀ t r : ℚ, (scanTraffic text).1.total_traffic = some t →
        (scanTraffic text).1.remaining_traffic = some r →
        (scanTraffic text).1.used_traffic = none →
        ∃ u : ℚ, (extract_traffic_info_from_text text).used_traffic = some u ∧
          t = u + r ∧
          (extract_traffic_info_from_text text).total_traffic = some t ∧
          (extract_traffic_info_from_text text).remaining_traffic = some r) ∧
      (∀ t u : ℚ, (scanTraffic text).1.total_traffic = some t →
        (scanTraffic text).1.used_traffic = some u →
        (scanTraffic text).1.remaining_traffic = none →
        ∃ r : ℚ, (extract_traffic_info_from_text text).remaining_traffic = some r ∧
          t = u + r ∧
          (extract_traffic_info_from_text text).total_traffic = some t ∧
          (extract_traffic_info_from_text text).used_traffic = some u) ∧
      (∀ t r u : ℚ, (scanTraffic text).1.total_traffic = some t →
        (scanTraffic text).1.remaining_traffic = some r →
        (scanTraffic text).1.used_traffic = some u →
        extract_traffic_info_from_text text = (scanTraffic text).1) := by
  intro text hfalse
  have hext := extract_of_scan_false text hfalse
  have h2dp := scanTraffic_2dp text
  refine ⟨?_, ?_, ?_⟩
  · intro t r ht hr hu
    rcases h2dp.1 t ht with ⟨kt, hkt⟩
    rcases h2dp.2.1 r hr with ⟨kr, hkr⟩
    have hround : round2 (t - r) = t - r := by
      refine round2_eq_self _ (kt - kr) ?_
      push_cast
      nlinarith
    refine ⟨t - r, ?_, by ring, ?_, ?_⟩ <;>
    · rw [hext]
      rcases hscan : (scanTraffic text).1 with ⟨ot, orm, ou, oun⟩
      rw [hscan] at ht hr hu
      simp only at ht hr hu
      subst ht; subst hr; subst hu
      simp [deriveMissingTraffic, hround]
  · intro t u ht hu hr
    rcases h2dp.1 t ht with ⟨kt, hkt⟩
    rcases h2dp.2.2 u hu with ⟨ku, hku⟩
    have hround : round2 (t - u) = t - u := by
      refine round2_eq_self _ (kt - ku) ?_
      push_cast
      nlinarith
    refine ⟨t - u, ?_, by ring, ?_, ?_⟩ <;>
    · rw [hext]
      rcases hscan : (scanTraffic text).1 with ⟨ot, orm, ou, oun⟩
      rw [hscan] at ht hr hu
      simp only at ht hr hu
      subst ht; subst hr; subst hu
      simp [deriveMissingTraffic, hround]
  · intro t r u ht hr hu
    rw [hext]
    rcases hscan : (scanTraffic text).1 with ⟨ot, orm, ou, oun⟩
    rw [hscan] at ht hr hu
    simp only at ht hr hu
    subst ht; subst hr; subst hu
    simp [deriveMissingTraffic]

section TrafficConcrete

theorem natOfDigits_single (c : Char) : natOfDigits [c] = (c.toNat : ℚ) - 48 := by
  rw [natOfDigits, List.foldl_cons, List.foldl_nil]
  ring

theorem parsePyFloat_digit (c : Char) (h : isAsciiDigit c = true) :
    parsePyFloat [c] = some ((c.toNat : ℚ) - 48) := by
  have hcount : List.count '.' [c] ≤ 1 := by
    by_cases hc : c = '.' <;> simp [List.count_cons, hc]
  rw [parsePyFloat, if_pos ⟨by simpa using hcount, by simp [List.any_cons, h]⟩]
  simp only [List.takeWhile_cons, List.dropWhile_cons, h, if_true, List.takeWhile_nil,
    List.dropWhile_nil]
  rw [natOfDigits_single]

theorem parsePyFloat_3 : parsePyFloat (strChars "3") = some 3 := by
  rw [(by decide : strChars "3" = ['3']), parsePyFloat_digit '3' (by decide)]
  norm_num [(by decide : ('3').toNat = 51)]

theorem parsePyFloat_5 : parsePyFloat (strChars "5") = some 5 := by
  rw [(by decide : strChars "5" = ['5']), parsePyFloat_digit '5' (by decide)]
  norm_num [(by decide : ('5').toNat = 53)]

theorem parsePyFloat_8 : parsePyFloat (strChars "8") = some 8 := by
  rw [(by decide : strChars "8" = ['8']), parsePyFloat_digit '8' (by decide)]
  norm_num [(by decide : ('8').toNat = 56)]

theorem convert_gb_unit (v : ℚ) : _convert_to_gb v (strChars "GB") = v := by
  rw [_convert_to_gb,
    (by decide : isPrefixStr (strChars "tb") (toLowerStr (strChars "GB")) = false),
    (by decide : isPrefixStr (strChars "mb") (toLowerStr (strChars "GB")) = false)]
  simp

theorem round2_3 : round2 (3 : ℚ) = 3 := round2_eq_self 3 300 (by norm_num)

theorem round2_5 : round2 (5 : ℚ) = 5 := round2_eq_self 5 500 (by norm_num)

theorem round2_8 : round2 (8 : ℚ) = 8 := round2_eq_self 8 800 (by norm_num)

theorem scanTraffic_usedRem :
    scanTraffic (strChars "Used: 5GB Remaining: 3GB") =
      ({ total_traffic := none, remaining_traffic := some 3, used_traffic := some 5,
         traffic_unit := some (strChars "GB") }, false) := by
  rw [scanTraffic, trafficPatterns]
  rw [scanTrafficPatterns_cons_none _ _ _ _
    (by decide : reSearchTraffic patTotalZh (strChars "Used: 5GB Remaining: 3GB") = none)]
  rw [scanTrafficPatterns_cons_none _ _ _ _
    (by decide : reSearchTraffic patRemZh (strChars "Used: 5GB Remaining: 3GB") = none)]
  rw [scanTrafficPatterns_cons_none _ _ _ _
    (by decide : reSearchTraffic patUsedZh (strChars "Used: 5GB Remaining: 3GB") = none)]
  rw [scanTrafficPatterns_cons_none _ _ _ _
    (by decide : reSearchTraffic patTotalEn (strChars "Used: 5GB Remaining: 3GB") = none)]
  rw [scanTrafficPatterns_cons_some _ _ _ _ _ _ _
    (by decide : reSearchTraffic patRemEn (strChars "Used: 5GB Remaining: 3GB") =
      some (strChars "3", some (strChars "GB"))) parsePyFloat_3]
  rw [scanTrafficPatterns_cons_some _ _ _ _ _ _ _
    (by decide : reSearchTraffic patUsedEn (strChars "Used: 5GB Remaining: 3GB") =
      some (strChars "5", some (strChars "GB"))) parsePyFloat_5]
  rw [scanTrafficPatterns]
  simp only [Option.getD, convert_gb_unit, round2_3, round2_5, setTrafficKey,
    emptyTrafficInfo, patRemEn, patUsedEn]

theorem scanTraffic_totalRem :
    scanTraffic (strChars "Total: 8GB Remaining: 3GB") =
      ({ total_traffic := some 8, remaining_traffic := some 3, used_traffic := none,
         traffic_unit := some (strChars "GB") }, false) := by
  rw [scanTraffic, trafficPatterns]
  rw [scanTrafficPatterns_cons_none _ _ _ _
    (by decide : reSearchTraffic patTotalZh (strChars "Total: 8GB Remaining: 3GB") = none)]
  rw [scanTrafficPatterns_cons_none _ _ _ _
    (by decide : reSearchTraffic patRemZh (strChars "Total: 8GB Remaining: 3GB") = none)]
  rw [scanTrafficPatterns_cons_none _ _ _ _
    (by decide : reSearchTraffic patUsedZh (strChars "Total: 8GB Remaining: 3GB") = none)]
  rw [scanTrafficPatterns_cons_some _ _ _ _ _ _ _
    (by decide : reSearchTraffic patTotalEn (strChars "Total: 8GB Remaining: 3GB") =
      some (strChars "8", some (strChars "GB"))) parsePyFloat_8]
  rw [scanTrafficPatterns_cons_some _ _ _ _ _ _ _
    (by decide : reSearchTraffic patRemEn (strChars "Total: 8GB Remaining: 3GB") =
      some (strChars "3", some (strChars "GB"))) parsePyFloat_3]
  rw [scanTrafficPatterns_cons_none _ _ _ _
    (by decide : reSearchTraffic patUsedEn (strChars "Total: 8GB Remaining: 3GB") = none)]
  rw [scanTrafficPatterns]
  simp only [Option.getD, convert_gb_unit, round2_3, round2_8, setTrafficKey,
    emptyTrafficInfo, patTotalEn, patRemEn]

theorem scanTraffic_totalRemBadUsed :
    scanTraffic (strChars "Total: 8GB Remaining: 3GB Used: 1.2.3") =
      ({ total_traffic := some 8, remaining_traffic := some 3, used_traffic := none,
         traffic_unit := some (strChars "GB") }, true) := by
  rw [scanTraffic, trafficPatterns]
  rw [scanTrafficPatterns_cons_none _ _ _ _
    (by decide : reSearchTraffic patTotalZh
      (strChars "Total: 8GB Remaining: 3GB Used: 1.2.3") = none)]
  rw [scanTrafficPatterns_cons_none _ _ _ _
    (by decide : reSearchTraffic patRemZh
      (strChars "Total: 8GB Remaining: 3GB Used: 1.2.3") = none)]
  rw [scanTrafficPatterns_cons_none _ _ _ _
    (by decide : reSearchTraffic patUsedZh
      (strChars "Total: 8GB Remaining: 3GB Used: 1.2.3") = none)]
  rw [scanTrafficPatterns_cons_some _ _ _ _ _ _ _
    (by decide : reSearchTraffic patTotalEn
      (strChars "Total: 8GB Remaining: 3GB Used: 1.2.3") =
      some (strChars "8", some (strChars "GB"))) parsePyFloat_8]
  rw [scanTrafficPatterns_cons_some _ _ _ _ _ _ _
    (by decide : reSearchTraffic patRemEn
      (strChars "Total: 8GB Remaining: 3GB Used: 1.2.3") =
      some (strChars "3", some (strChars "GB"))) parsePyFloat_3]
  rw [scanTrafficPatterns_cons_badfloat _ _ _ _ _ _
    (by decide : reSearchTraffic patUsedEn
      (strChars "Total: 8GB Remaining: 3GB Used: 1.2.3") =
      some (strChars "1.2.3", none))
    (by decide : parsePyFloat (strChars "1.2.3") = none)]
  simp only [Option.getD, convert_gb_unit, round2_3, round2_8, setTrafficKey,
    emptyTrafficInfo, patTotalEn, patRemEn]

end TrafficConcrete

/-- C2 counterexamples, both verified against the CPython behaviour of
the source. First, for `"Used: 5GB Remaining: 3GB"` the extraction
resolves exactly two of the three values (used = 5, remaining = 3) but
does not fill in the third: `total` stays absent, because the code only
derives `used` and `remaining`, never `total`. Second, for
`"Total: 8GB Remaining: 3GB Used: 1.2.3"` the `Used` pattern captures
`1.2.3`, `float()` raises, and the surrounding `try/except` returns the
partial result: exactly two values are resolved with `total` among them
(total = 8, remaining = 3), yet `used` is not filled either, because the
exception also skips the derivation step. -/
theorem claim_C2_counterexample :
    ((extract_traffic_info_from_text (strChars "Used: 5GB Remaining: 3GB")).used_traffic =
        some 5 ∧
     (extract_traffic_info_from_text (strChars "Used: 5GB Remaining: 3GB")).remaining_traffic =
        some 3 ∧
     (extract_traffic_info_from_text (strChars "Used: 5GB Remaining: 3GB")).total_traffic =
        none) ∧
    ((extract_traffic_info_from_text
        (strChars "Total: 8GB Remaining: 3GB Used: 1.2.3")).total_traffic = some 8 ∧
     (extract_traffic_info_from_text
        (strChars "Total: 8GB Remaining: 3GB Used: 1.2.3")).remaining_traffic = some 3 ∧
     (extract_traffic_info_from_text
        (strChars "Total: 8GB Remaining: 3GB Used: 1.2.3")).used_traffic = none) := by
  constructor
  · have h := extract_of_scan_false (strChars "Used: 5GB Remaining: 3GB")
      (by rw [scanTraffic_usedRem])
    rw [h, scanTraffic_usedRem]
    refine ⟨rfl, rfl, rfl⟩
  · have h : extract_traffic_info_from_text (strChars "Total: 8GB Remaining: 3GB Used: 1.2.3") =
        (scanTraffic (strChars "Total: 8GB Remaining: 3GB Used: 1.2.3")).1 := by
      rw [extract_traffic_info_from_text]
      simp only [scanTraffic_totalRemBadUsed, if_true]
    rw [h, scanTraffic_totalRemBadUsed]
    refine ⟨rfl, rfl, rfl⟩

/-- Witness for C2 (amended) at `"Total: 8GB Remaining: 3GB"`: total and
remaining resolve, used is missing, and the extraction fills used with a
value satisfying `total = used + remaining` exactly. -/
theorem claim_C2_witness :
    ∃ u : ℚ,
      (extract_traffic_info_from_text (strChars "Total: 8GB Remaining: 3GB")).used_traffic =
        some u ∧
      (8 : ℚ) = u + 3 ∧
      (extract_traffic_info_from_text (strChars "Total: 8GB Remaining: 3GB")).total_traffic =
        some 8 ∧
      (extract_traffic_info_from_text
          (strChars "Total: 8GB Remaining: 3GB")).remaining_traffic = some 3 :=
  (claim_C2_traffic_identity_fill (strChars "Total: 8GB Remaining: 3GB")
      (by rw [scanTraffic_totalRem])).1 8 3
    (by rw [scanTraffic_totalRem]) (by rw [scanTraffic_totalRem]) (by rw [scanTraffic_totalRem])

theorem mark_rate_limited_at (st : RateState) (url : Str) (now : ℚ) (reason : Str) :
    (mark_rate_limited st url now reason) url =
      some { hits := hitsOf st url + 1, last_reason := reason, last_at := now,
             next_allowed_at := now + waitMinutesFor (hitsOf st url + 1) * 60 } := by
  rw [mark_rate_limited]
  simp only [if_pos rfl]
  rw [hitsOf, waitMinutesFor]
  rcases h : st url with _ | info <;> simp [h]

theorem hitsOf_mark (st : RateState) (url : Str) (now : ℚ) (reason : Str) :
    hitsOf (mark_rate_limited st url now reason) url = hitsOf st url + 1 := by
  rw [hitsOf, mark_rate_limited_at]

theorem signalSeq_last (url : Str) (reason : Str) (ts : List ℚ) :
    ∀ (st : RateState) (tlast : ℚ),
      (signalSeq st url reason (ts ++ [tlast])) url =
        some { hits := hitsOf st url + ts.length + 1, last_reason := reason,
               last_at := tlast,
               next_allowed_at := tlast + waitMinutesFor (hitsOf st url + ts.length + 1) * 60 } := by
  induction ts with
  | nil =>
    intro st tlast
    rw [List.nil_append, signalSeq, signalSeq, mark_rate_limited_at]
    simp
  | cons t ts ih =>
    intro st tlast
    rw [List.cons_append, signalSeq, ih, hitsOf_mark]
    have : hitsOf st url + 1 + ts.length + 1 = hitsOf st url + (t :: ts).length + 1 := by
      simp [List.length_cons]; omega
    rw [this]

theorem waitMinutesFor_mono (n : Nat) : waitMinutesFor n ≤ waitMinutesFor (n + 1) := by
  rw [waitMinutesFor, waitMinutesFor]
  apply min_le_min _ le_rfl
  have h2 : (2 : ℚ) ^ (n - 1) ≤ 2 ^ (n + 1 - 1) := by
    apply pow_le_pow_right₀ (by norm_num)
    omega
  nlinarith

theorem waitMinutesFor_cap (n : Nat) : waitMinutesFor n ≤ 24 * 60 := by
  rw [waitMinutesFor]; exact min_le_right _ _

/-- C3: each consecutive rate-limit signal on a URL sets the wait to
`min(15 min * 2^(n-1), 24 h)` where `n` is the number of consecutive
signals, and next-allowed to `now + wait`; the wait is non-decreasing in
`n` and capped at 24 hours; the first signal yields `now + 15 min`
(900 s) and the second `now2 + 30 min` (1800 s). -/
theorem claim_C3_rate_limit_exponential_backoff :
    (∀ (st : RateState) (url reason : Str) (ts : List ℚ) (tlast : ℚ),
        st url = none →
        (signalSeq st url reason (ts ++ [tlast])) url =
          some { hits := ts.length + 1, last_reason := reason, last_at := tlast,
                 next_allowed_at := tlast + waitMinutesFor (ts.length + 1) * 60 }) ∧
    (∀ n : Nat, waitMinutesFor n ≤ waitMinutesFor (n + 1) ∧ waitMinutesFor n ≤ 24 * 60) ∧
    (∀ (st : RateState) (url reason : Str) (now : ℚ), st url = none →
        ((mark_rate_limited st url now reason) url).map RateInfo.next_allowed_at =
          some (now + 900)) ∧
    (∀ (st : RateState) (url reason reason2 : Str) (now now2 : ℚ), st url = none →
        ((mark_rate_limited (mark_rate_limited st url now reason) url now2 reason2) url).map
            RateInfo.next_allowed_at = some (now2 + 1800)) := by
  refine ⟨?_, fun n => ⟨waitMinutesFor_mono n, waitMinutesFor_cap n⟩, ?_, ?_⟩
  · intro st url reason ts tlast hnone
    have h0 : hitsOf st url = 0 := by rw [hitsOf, hnone]
    rw [signalSeq_last, h0]
    simp
  · intro st url reason now hnone
    have h0 : hitsOf st url = 0 := by rw [hitsOf, hnone]
    rw [mark_rate_limited_at, h0]
    norm_num [waitMinutesFor]
  · intro st url reason reason2 now now2 hnone
    have h0 : hitsOf st url = 0 := by rw [hitsOf, hnone]
    rw [mark_rate_limited_at, hitsOf_mark, h0]
    norm_num [waitMinutesFor]

/-- Witness for C3 at concrete inputs: two signals at times 1000 and 2000
on a fresh URL give hits = 2 and next-allowed 2000 + 30 min; a single
signal at time 0 gives next-allowed 900 s. -/
theorem claim_C3_witness :
    (signalSeq emptyRateState (strChars "u") (strChars "http 429") ([1000] ++ [2000]))
        (strChars "u") =
      some { hits := 2, last_reason := strChars "http 429", last_at := 2000,
             next_allowed_at := 2000 + waitMinutesFor 2 * 60 } ∧
    ((mark_rate_limited emptyRateState (strChars "u") 0 (strChars "http 429"))
        (strChars "u")).map RateInfo.next_allowed_at = some (0 + 900) := by
  constructor
  · exact claim_C3_rate_limit_exponential_backoff.1 emptyRateState
      (strChars "u") (strChars "http 429") [1000] 2000 rfl
  · exact claim_C3_rate_limit_exponential_backoff.2.2.1 emptyRateState
      (strChars "u") (strChars "http 429") 0 rfl

/-- C4: `should_skip_due_to_backoff` returns true exactly when `now` is
strictly before the recorded next-allowed timestamp; once
`now ≥ next-allowed` the URL is fetchable again while the failure counter
is untouched, so the next signal continues the exponential curve at
`hits + 1` instead of restarting. -/
theorem claim_C4_should_skip_iff_before_next_allowed :
    ∀ (st : RateState) (url : Str) (now : ℚ) (info : RateInfo),
      st url = some info →
      (should_skip_due_to_backoff st url now = true ↔ now < info.next_allowed_at) ∧
      (info.next_allowed_at ≤ now → should_skip_due_to_backoff st url now = false) ∧
      (∀ (now2 : ℚ) (reason : Str),
        (mark_rate_limited st url now2 reason) url =
          some { hits := info.hits + 1, last_reason := reason, last_at := now2,
                 next_allowed_at := now2 + waitMinutesFor (info.hits + 1) * 60 }) := by
  intro st url now info hsome
  refine ⟨?_, ?_, ?_⟩
  · rw [should_skip_due_to_backoff, hsome]
    exact decide_eq_true_iff
  · intro hle
    rw [should_skip_due_to_backoff, hsome]
    simpa using hle
  · intro now2 reason
    have h : hitsOf st url = info.hits := by rw [hitsOf, hsome]
    rw [mark_rate_limited_at, h]

/-- Witness for C4 at a concrete state: a URL recorded with next-allowed
500 is skipped at time 499, not skipped at time 500, and a repeat signal
at time 600 moves it to hits = 3 with a 60-minute wait. -/
theorem claim_C4_witness :
    (should_skip_due_to_backoff
        (mark_rate_limited (mark_rate_limited emptyRateState (strChars "u") 0
          (strChars "r")) (strChars "u") 0 (strChars "r"))
        (strChars "u") 1799 = true ↔
      (1799 : ℚ) < 0 + waitMinutesFor 2 * 60) ∧
    (mark_rate_limited
        (mark_rate_limited (mark_rate_limited emptyRateState (strChars "u") 0
          (strChars "r")) (strChars "u") 0 (strChars "r"))
        (strChars "u") 600 (strChars "r")) (strChars "u") =
      some { hits := 2 + 1, last_reason := strChars "r", last_at := 600,
             next_allowed_at := 600 + waitMinutesFor (2 + 1) * 60 } := by
  have h := claim_C4_should_skip_iff_before_next_allowed
    (mark_rate_limited (mark_rate_limited emptyRateState (strChars "u") 0
      (strChars "r")) (strChars "u") 0 (strChars "r"))
    (strChars "u") 1799
    { hits := 2, last_reason := strChars "r", last_at := 0,
      next_allowed_at := 0 + waitMinutesFor 2 * 60 }
    (by rw [mark_rate_limited_at, hitsOf_mark]; rfl)
  exact ⟨h.1, h.2.2 600 (strChars "r")⟩

example : classify_protocol (strChars "ssr://x") = some (strChars "ssr") := by decide

section KeyScheduler

theorem sortByReset_perm (ks : List KeyQuota) : (sortByReset ks).Perm ks :=
  List.perm_insertionSort resetLE ks

theorem sortByReset_pairwise (ks : List KeyQuota) : (sortByReset ks).Pairwise resetLE :=
  List.sorted_insertionSort resetLE ks

theorem find?_first_min (p : KeyQuota → Bool) :
    ∀ (l : List KeyQuota), l.Pairwise resetLE →
      ∀ {k : KeyQuota}, l.find? p = some k →
        ∀ x ∈ l, p x = true → k.reset_datetime ≤ x.reset_datetime := by
  intro l
  induction l with
  | nil => intro _ k hk; simp at hk
  | cons a t ih =>
    intro hpw k hk x hx hpx
    rcases List.pairwise_cons.mp hpw with ⟨ha, ht⟩
    by_cases hpa : p a = true
    · rw [List.find?_cons_of_pos _ hpa] at hk
      cases hk
      rcases List.mem_cons.mp hx with h | h
      · exact h ▸ le_rfl
      · exact ha x h
    · rw [List.find?_cons_of_neg _ hpa] at hk
      rcases List.mem_cons.mp hx with h | h
      · exact absurd (h ▸ hpx) hpa
      · exact ih ht hk x h hpx

theorem head?_min (l : List KeyQuota) (hpw : l.Pairwise resetLE) {h : KeyQuota}
    (hh : l.head? = some h) : ∀ x ∈ l, h.reset_datetime ≤ x.reset_datetime := by
  cases l with
  | nil => simp at hh
  | cons a t =>
    cases hh
    intro x hx
    rcases List.mem_cons.mp hx with h | h
    · exact h ▸ le_rfl
    · exact (List.pairwise_cons.mp hpw).1 x h

theorem filter_head?_of_find? (p : KeyQuota → Bool) :
    ∀ (l : List KeyQuota) (k : KeyQuota), l.find? p = some k →
      (l.filter p).head? = some k := by
  intro l
  induction l with
  | nil => intro k hk; simp at hk
  | cons a t ih =>
    intro k hk
    by_cases hpa : p a = true
    · rw [List.find?_cons_of_pos _ hpa] at hk
      cases hk
      rw [List.filter_cons_of_pos hpa]
      rfl
    · rw [List.find?_cons_of_neg _ hpa] at hk
      rw [List.filter_cons_of_neg hpa]
      exact ih k hk

end KeyScheduler

/-- C5: among active credentials with remaining quota > 0, `get_optimal_key`
returns one whose computed next-reset date is soonest; if no active
credential has remaining quota, it returns an active credential whose
next-reset date is soonest overall; it always agrees with the head of
`get_key_priority_list`; and in the spec's scenario (A: remaining 0,
resets in 3 days; B: remaining 50, resets in 20 days) it returns B. -/
theorem claim_C5_optimal_key_selection :
    ∀ qs : List KeyQuota,
      ((∃ k, k ∈ activeKeys qs ∧ k.total_searches_left > 0) →
        ∃ k, k ∈ activeKeys qs ∧ k.total_searches_left > 0 ∧
          get_optimal_key qs = some k.api_key ∧
          ∀ k2 ∈ activeKeys qs, k2.total_searches_left > 0 →
            k.reset_datetime ≤ k2.reset_datetime) ∧
      (activeKeys qs ≠ [] → (∀ k ∈ activeKeys qs, k.total_searches_left ≤ 0) →
        ∃ k, k ∈ activeKeys qs ∧ get_optimal_key qs = some k.api_key ∧
          ∀ k2 ∈ activeKeys qs, k.reset_datetime ≤ k2.reset_datetime) ∧
      get_optimal_key qs = (get_key_priority_list qs).head? ∧
      get_optimal_key [scenarioKeyA, scenarioKeyB] = some (strChars "KEYB") := by
  intro qs
  have hperm := sortByReset_perm (activeKeys qs)
  have hpw := sortByReset_pairwise (activeKeys qs)
  refine ⟨?_, ?_, ?_, by decide⟩
  · rintro ⟨k0, hk0mem, hk0pos⟩
    have hne : (activeKeys qs).isEmpty = false := by
      cases hact : activeKeys qs with
      | nil => rw [hact] at hk0mem; simp at hk0mem
      | cons a t => simp [hact]
    have hk0sorted : k0 ∈ sortByReset (activeKeys qs) := hperm.mem_iff.mpr hk0mem
    have hfind : ∃ k, (sortByReset (activeKeys qs)).find?
        (fun k => decide (k.total_searches_left > 0)) = some k := by
      cases hf : (sortByReset (activeKeys qs)).find?
          (fun k => decide (k.total_searches_left > 0)) with
      | none =>
        exact absurd (List.find?_eq_none.mp hf k0 hk0sorted) (by simp [hk0pos])
      | some k => exact ⟨k, rfl⟩
    rcases hfind with ⟨k, hk⟩
    refine ⟨k, hperm.mem_iff.mp (List.mem_of_find?_eq_some hk), ?_, ?_, ?_⟩
    · have := List.find?_some hk
      simpa using this
    · rw [get_optimal_key]
      simp only [hne, Bool.false_eq_true, if_false, hk]
    · intro k2 hk2 hk2pos
      exact find?_first_min _ _ hpw hk k2 (hperm.mem_iff.mpr hk2) (by simpa using hk2pos)
  · intro hne hall
    have hneb : (activeKeys qs).isEmpty = false := by
      cases hact : activeKeys qs with
      | nil => exact absurd hact hne
      | cons a t => simp [hact]
    have hfnone : (sortByReset (activeKeys qs)).find?
        (fun k => decide (k.total_searches_left > 0)) = none := by
      rw [List.find?_eq_none]
      intro x hx
      have hx0 : x.total_searches_left ≤ 0 := hall x (hperm.mem_iff.mp hx)
      simp only [decide_eq_true_iff]
      omega
    have hsne : sortByReset (activeKeys qs) ≠ [] := by
      intro h
      rcases List.exists_mem_of_ne_nil (activeKeys qs) hne with ⟨a, ha⟩
      have := hperm.mem_iff.mpr ha
      rw [h] at this
      simp at this
    cases hh : (sortByReset (activeKeys qs)).head? with
    | none => rw [List.head?_eq_none_iff] at hh; exact absurd hh hsne
    | some k =>
      have hkmem : k ∈ sortByReset (activeKeys qs) := by
        cases hs : sortByReset (activeKeys qs) with
        | nil => exact absurd hs hsne
        | cons a t => rw [hs] at hh; cases hh; exact List.mem_cons_self _ _
      refine ⟨k, hperm.mem_iff.mp hkmem, ?_, ?_⟩
      · rw [get_optimal_key]
        simp only [hneb, Bool.false_eq_true, if_false, hfnone, hh]
        rfl
      · intro k2 hk2
        exact head?_min _ hpw hh k2 (hperm.mem_iff.mpr hk2)
  · by_cases hact : (activeKeys qs).isEmpty = true
    · rw [get_optimal_key, get_key_priority_list]
      simp [hact]
    · have hneb : (activeKeys qs).isEmpty = false := by simpa using hact
      rw [get_optimal_key, get_key_priority_list]
      simp only [hneb, Bool.false_eq_true, if_false]
      cases hf : (sortByReset (activeKeys qs)).find?
          (fun k => decide (k.total_searches_left > 0)) with
      | some k =>
        have hhead := filter_head?_of_find? _ _ k hf
        rw [List.head?_map, List.head?_append_of_ne_nil]
        · rw [hhead]; rfl
        · intro hnil
          rw [hnil] at hhead
          simp at hhead
      | none =>
        have hqnil : (sortByReset (activeKeys qs)).filter
            (fun k => decide (k.total_searches_left > 0)) = [] := by
          rw [List.filter_eq_nil_iff]
          intro a ha
          have := List.find?_eq_none.mp hf a ha
          simpa using this
        have hqall : (sortByReset (activeKeys qs)).filter
            (fun k => decide (k.total_searches_left ≤ 0)) = sortByReset (activeKeys qs) := by
          rw [List.filter_eq_self]
          intro a ha
          have := List.find?_eq_none.mp hf a ha
          simp only [decide_eq_true_iff] at this ⊢
          omega
        rw [hqnil, hqall, List.nil_append, List.head?_map]

/-- Witness for C5: in the concrete scenario list `[A, B]` there is a
positive-quota credential, and the selector picks one (namely B) that
resets soonest among positive-quota credentials. -/
theorem claim_C5_witness :
    ∃ k, k ∈ activeKeys [scenarioKeyA, scenarioKeyB] ∧ k.total_searches_left > 0 ∧
      get_optimal_key [scenarioKeyA, scenarioKeyB] = some k.api_key ∧
      ∀ k2 ∈ activeKeys [scenarioKeyA, scenarioKeyB], k2.total_searches_left > 0 →
        k.reset_datetime ≤ k2.reset_datetime :=
  (claim_C5_optimal_key_selection [scenarioKeyA, scenarioKeyB]).1
    ⟨scenarioKeyB, by decide, by decide⟩

example : normalize_node_line (strChars "  vmess://abc  ") = some (strChars "vmess://abc") := by decide

example : normalize_node_line (strChars "http://abc") = none := by decide

/-- C1 counterexample: a structured configuration body (recognizable
top-level keys `port:`/`proxies:` and a `proxies` collection with a typed
entry) that contains no protocol-prefix substring. The aggregator decode
pipeline silently returns the empty node list for it — it neither parses
the structured format nor attempts any conversion fallback — contradicting
the claim. (Its base64 path also fails: the body has 33 base64-alphabet
characters, 1 more than a multiple of 4.) -/
theorem claim_C1_counterexample :
    split_subscription_content_to_lines
      (strChars "port: 7890\nproxies:\n- name: a\n  type: ss\n  server: x\n") = [] := by
  decide

/-- C1 (amended): for every body text with no protocol-prefix substring
whose base64 decoding either fails or also contains none, the aggregator
decode pipeline (`split_subscription_content_to_lines`) returns the empty
node list: structured configuration parsing and the external conversion
fallback are not part of this pipeline (they live in the separate
subscription-checker component). -/
theorem claim_C1_amended_no_prefix_means_empty :
    ∀ text : Str,
      (∀ p ∈ PROTOCOL_PREFIXES, containsSub p text = false) →
      (∀ d, safe_b64_decode (pyStrip text) = some d →
        ∀ p ∈ PROTOCOL_PREFIXES, containsSub p d = false) →
      split_subscription_content_to_lines text = [] := by
  intro text hraw hdec
  rw [split_subscription_content_to_lines]
  have hany : PROTOCOL_PREFIXES.any (fun p => containsSub p text) = false := by
    rw [← Bool.not_eq_true, List.any_eq_true]
    rintro ⟨p, hp, hc⟩
    rw [hraw p hp] at hc
    exact Bool.false_ne_true hc
  rw [hany]
  simp only [Bool.false_eq_true, if_false]
  cases hd : safe_b64_decode (pyStrip text) with
  | none => rfl
  | some d =>
    have hany2 : PROTOCOL_PREFIXES.any (fun p => containsSub p d) = false := by
      rw [← Bool.not_eq_true, List.any_eq_true]
      rintro ⟨p, hp, hc⟩
      rw [hdec d hd p hp] at hc
      exact Bool.false_ne_true hc
    exact if_neg (by
      rintro ⟨-, hc⟩
      rw [hany2] at hc
      exact Bool.false_ne_true hc)

/-- Witness for C1 (amended) at the concrete body `"hello"`: no protocol
prefix occurs, base64 decoding fails (5 data characters), and the pipeline
returns the empty list. -/
theorem claim_C1_witness :
    split_subscription_content_to_lines (strChars "hello") = [] :=
  claim_C1_amended_no_prefix_means_empty (strChars "hello") (by decide)
    (fun d hd => by
      rw [(by decide : safe_b64_decode (pyStrip (strChars "hello")) = none)] at hd
      cases hd)

/-- C9: a source is excluded from the refined alive list exactly when its
fetch failed, zero nodes decode, a rate-limit phrase occurs in the (HTTP
200) body, or its remaining quota resolves to ≤ 0; and every line of the
verified node files comes from a source on the refined alive list. -/
theorem claim_C9_exhausted_sources_excluded :
    (∀ (urls : List Str) (fetch : Str → Option Str) (u : Str), u ∈ urls →
      (u ∈ refinedAliveUrls urls fetch ↔
        ∃ body, fetch u = some body ∧ nodesTotalOf body ≠ 0 ∧
          overQuotaHint body = false ∧ depletedOf body = false)) ∧
    (∀ (urls : List Str) (fetch : Str → Option Str) (st : RateState) (now : ℚ) (ln : Str),
      ln ∈ verifiedNodesRaw urls fetch st now →
      ∃ u body, u ∈ refinedAliveUrls urls fetch ∧ fetch u = some body ∧
        ln ∈ sourceNodes body) := by
  constructor
  · intro urls fetch u hu
    rw [refinedAliveUrls, List.mem_filter]
    constructor
    · rintro ⟨-, havail⟩
      rw [sourceAvailable.eq_def] at havail
      cases hf : fetch u with
      | none => rw [hf] at havail; cases havail
      | some body =>
        rw [hf] at havail
        simp only [Bool.not_eq_true', Bool.or_eq_false_iff, beq_eq_false_iff_ne] at havail
        exact ⟨body, rfl, havail.1.1, havail.1.2, havail.2⟩
    · rintro ⟨body, hf, hn, hq, hd⟩
      refine ⟨hu, ?_⟩
      rw [sourceAvailable.eq_def, hf]
      simp only [Bool.not_eq_true', Bool.or_eq_false_iff, beq_eq_false_iff_ne]
      exact ⟨⟨hn, hq⟩, hd⟩
  · intro urls fetch st now ln hln
    rw [verifiedNodesRaw, List.mem_flatten] at hln
    rcases hln with ⟨l, hl, hmem⟩
    rcases List.mem_map.mp hl with ⟨u, humem, hval⟩
    by_cases hskip : should_skip_due_to_backoff st u now = true
    · rw [if_pos hskip] at hval
      rw [← hval] at hmem
      cases hmem
    · rw [if_neg hskip] at hval
      cases hf : fetch u with
      | none => rw [hf] at hval; rw [← hval] at hmem; cases hmem
      | some body =>
        rw [hf] at hval
        have hval2 : sourceNodes body = l := hval
        exact ⟨u, body, humem, hf, hval2 ▸ hmem⟩

/-- Witness for C9 at a concrete run: one source whose body decodes to two
nodes and shows no quota problems is on the refined alive list (the right
side of the equivalence holds by computation). -/
theorem claim_C9_witness :
    strChars "u1" ∈
      refinedAliveUrls [strChars "u1"] (fun _ => some (strChars "ss://AAA\nvmess://BBB\n")) :=
  (claim_C9_exhausted_sources_excluded.1 [strChars "u1"]
      (fun _ => some (strChars "ss://AAA\nvmess://BBB\n")) (strChars "u1")
      (by decide)).mpr
    ⟨strChars "ss://AAA\nvmess://BBB\n", rfl, by decide, by decide, by
      rw [depletedOf,
        (by decide : (extract_traffic_info_from_text
          ((strChars "ss://AAA\nvmess://BBB\n").take 4000)).remaining_traffic =
            (none : Option ℚ))]⟩

theorem isPrefixStr_total : ∀ (n p q : Str), isPrefixStr p n = true → isPrefixStr q n = true →
    isPrefixStr p q = true ∨ isPrefixStr q p = true := by
  intro n
  induction n with
  | nil =>
    intro p q hp hq
    cases p <;> cases q <;> simp_all [isPrefixStr]
  | cons c t ih =>
    intro p q hp hq
    cases p with
    | nil => exact Or.inl rfl
    | cons a p2 =>
      cases q with
      | nil => exact Or.inr rfl
      | cons b q2 =>
        rw [isPrefixStr, Bool.and_eq_true] at hp hq
        have hac : a = c := by simpa using hp.1
        have hbc : b = c := by simpa using hq.1
        rcases ih p2 q2 hp.2 hq.2 with h | h
        · exact Or.inl (by rw [isPrefixStr, Bool.and_eq_true]; exact ⟨by simp [hac, hbc], h⟩)
        · exact Or.inr (by rw [isPrefixStr, Bool.and_eq_true]; exact ⟨by simp [hac, hbc], h⟩)

/-- C10: every node line surviving `normalize_node_line` (hence every line
of the aggregated/published node lists, which are built through it) starts
with exactly one of the six recognized protocol prefixes, and
`classify_protocol` succeeds on it. -/
theorem claim_C10_surviving_lines_have_unique_protocol :
    (∀ line n : Str, normalize_node_line line = some n →
      (∃ p ∈ PROTOCOL_PREFIXES, isPrefixStr p n = true) ∧
      (classify_protocol n).isSome = true ∧
      (∀ p q, p ∈ PROTOCOL_PREFIXES → q ∈ PROTOCOL_PREFIXES →
        isPrefixStr p n = true → isPrefixStr q n = true → p = q)) ∧
    (∀ lines : List Str, ∀ n ∈ lines.filterMap normalize_node_line,
      (classify_protocol n).isSome = true) := by
  have main : ∀ line n : Str, normalize_node_line line = some n →
      (∃ p ∈ PROTOCOL_PREFIXES, isPrefixStr p n = true) ∧
      (classify_protocol n).isSome = true ∧
      (∀ p q, p ∈ PROTOCOL_PREFIXES → q ∈ PROTOCOL_PREFIXES →
        isPrefixStr p n = true → isPrefixStr q n = true → p = q) := by
    intro line n hn
    rw [normalize_node_line] at hn
    by_cases hempty : pyStrip line = []
    · rw [if_pos hempty] at hn; cases hn
    rw [if_neg hempty] at hn
    by_cases hany : PROTOCOL_PREFIXES.any (fun p => isPrefixStr p (pyStrip line)) = true
    · rw [if_pos hany] at hn
      cases hn
      rcases List.any_eq_true.mp hany with ⟨p, hpmem, hppref⟩
      refine ⟨⟨p, hpmem, hppref⟩, ?_, ?_⟩
      · rw [classify_protocol, List.find?_isSome]
        have hpmem2 := hpmem
        simp only [PROTOCOL_PREFIXES, List.mem_cons, List.not_mem_nil, or_false] at hpmem2
        rcases hpmem2 with h | h | h | h | h | h
        · exact ⟨strChars "vmess", by simp, by
            have e : strChars "vmess" ++ strChars "://" = strChars "vmess://" := by decide
            rw [e, ← h]; exact hppref⟩
        · exact ⟨strChars "vless", by simp, by
            have e : strChars "vless" ++ strChars "://" = strChars "vless://" := by decide
            rw [e, ← h]; exact hppref⟩
        · exact ⟨strChars "trojan", by simp, by
            have e : strChars "trojan" ++ strChars "://" = strChars "trojan://" := by decide
            rw [e, ← h]; exact hppref⟩
        · exact ⟨strChars "ss", by simp, by
            have e : strChars "ss" ++ strChars "://" = strChars "ss://" := by decide
            rw [e, ← h]; exact hppref⟩
        · exact ⟨strChars "ssr", by simp, by
            have e : strChars "ssr" ++ strChars "://" = strChars "ssr://" := by decide
            rw [e, ← h]; exact hppref⟩
        · exact ⟨strChars "hysteria2", by simp, by
            have e : strChars "hysteria2" ++ strChars "://" = strChars "hysteria2://" := by decide
            rw [e, ← h]; exact hppref⟩
      · intro p1 q1 hp1 hq1 hp1pref hq1pref
        have htot := isPrefixStr_total (pyStrip line) p1 q1 hp1pref hq1pref
        simp only [PROTOCOL_PREFIXES, List.mem_cons, List.not_mem_nil, or_false] at hp1 hq1
        rcases hp1 with h | h | h | h | h | h <;> subst h <;>
          (rcases hq1 with h | h | h | h | h | h <;> subst h) <;>
          first
            | rfl
            | (exfalso; revert htot; decide)
    · rw [if_neg hany] at hn; cases hn
  refine ⟨main, ?_⟩
  intro lines n hmem
  rcases List.mem_filterMap.mp hmem with ⟨line, _, hline⟩
  exact (main line n hline).2.1

/-- Witness for C10 at a concrete line: `" ss://abc "` survives
normalization, starts with a recognized prefix, and classifies. -/
theorem claim_C10_witness :
    (∃ p ∈ PROTOCOL_PREFIXES, isPrefixStr p (strChars "ss://abc") = true) ∧
    (classify_protocol (strChars "ss://abc")).isSome = true ∧
    (∀ p q, p ∈ PROTOCOL_PREFIXES → q ∈ PROTOCOL_PREFIXES →
      isPrefixStr p (strChars "ss://abc") = true →
      isPrefixStr q (strChars "ss://abc") = true → p = q) :=
  claim_C10_surviving_lines_have_unique_protocol.1 (strChars " ss://abc ")
    (strChars "ss://abc") (by decide)

-- ------------- Character-level lemmas for the URL normalizer -------------

section CharLemmas

theorem char_toNat_inj {c d : Char} (h : c.toNat = d.toNat) : c = d := by
  apply Char.ext
  rcases c with ⟨⟨cv⟩, hc⟩
  rcases d with ⟨⟨dv⟩, hd⟩
  simp only [Char.toNat, UInt32.toNat] at h
  simp only [BitVec.toNat_injective h]

theorem char_ofNat_toNat {n : Nat} (h : n.isValidChar) : (Char.ofNat n).toNat = n := by
  rw [Char.ofNat, dif_pos h, Char.ofNatAux]
  simp [Char.toNat, UInt32.toNat]

theorem toLower_toNat (c : Char) :
    (Char.toLower c).toNat = if 65 ≤ c.toNat ∧ c.toNat ≤ 90 then c.toNat + 32 else c.toNat := by
  simp only [Char.toLower]
  by_cases h : 65 ≤ c.toNat ∧ c.toNat ≤ 90
  · rw [if_pos ⟨h.1, h.2⟩, if_pos h, char_ofNat_toNat]
    left
    omega
  · rw [if_neg, if_neg h]
    intro h2
    exact h ⟨h2.1, h2.2⟩

theorem toLower_idem (c : Char) : Char.toLower (Char.toLower c) = Char.toLower c := by
  apply char_toNat_inj
  have h := toLower_toNat c
  rw [toLower_toNat, h]
  split_ifs at h ⊢ <;> omega

theorem toLowerStr_idem (s : Str) : toLowerStr (toLowerStr s) = toLowerStr s := by
  rw [toLowerStr, toLowerStr, List.map_map]
  exact List.map_congr_left (fun c _ => toLower_idem c)

theorem isAsciiAlnum_toLower (c : Char) (h : isAsciiAlnum c = true) :
    isAsciiAlnum (Char.toLower c) = true := by
  simp only [isAsciiAlnum, Bool.or_eq_true, Bool.and_eq_true, decide_eq_true_iff] at h ⊢
  rw [toLower_toNat]
  split_ifs <;> omega

theorem isAsciiAlpha_toLower (c : Char) (h : isAsciiAlpha c = true) :
    isAsciiAlpha (Char.toLower c) = true := by
  simp only [isAsciiAlpha, Bool.or_eq_true, Bool.and_eq_true, decide_eq_true_iff] at h ⊢
  rw [toLower_toNat]
  split_ifs <;> omega

theorem schemeChar_toLower (c : Char) (h : schemeChar c = true) :
    schemeChar (Char.toLower c) = true := by
  rw [schemeChar, Bool.or_eq_true, Bool.or_eq_true, Bool.or_eq_true] at h
  rcases h with ((h | h) | h) | h
  · rw [schemeChar, isAsciiAlnum_toLower c h]
    simp
  · rw [beq_iff_eq] at h
    subst h
    decide
  · rw [beq_iff_eq] at h
    subst h
    decide
  · rw [beq_iff_eq] at h
    subst h
    decide

theorem schemeChar_safe (c : Char) (h : schemeChar c = true) : isSafeChar c = true := by
  rw [schemeChar, Bool.or_eq_true, Bool.or_eq_true, Bool.or_eq_true] at h
  rcases h with ((h | h) | h) | h
  · rw [isSafeChar, h]
    simp
  · rw [beq_iff_eq] at h; subst h; decide
  · rw [beq_iff_eq] at h; subst h; decide
  · rw [beq_iff_eq] at h; subst h; decide

theorem schemeChar_ne_colon (c : Char) (h : schemeChar c = true) : c ≠ ':' := by
  intro hc
  subst hc
  exact absurd h (by decide)

theorem isAsciiAlnum_safe (c : Char) (h : isAsciiAlnum c = true) : isSafeChar c = true := by
  rw [isSafeChar, h]
  simp

theorem isAsciiAlnum_ne (c : Char) (h : isAsciiAlnum c = true) (d : Char)
    (hd : isAsciiAlnum d = false) : c ≠ d := by
  intro hc
  subst hc
  rw [h] at hd
  cases hd

theorem toLowerStr_schemeAll (s : Str) (h : s.all schemeChar = true) :
    (toLowerStr s).all schemeChar = true := by
  rw [toLowerStr, List.all_map]
  rw [List.all_eq_true] at h ⊢
  exact fun c hc => schemeChar_toLower c (h c hc)

theorem isAsciiAlpha_alnum (c : Char) (h : isAsciiAlpha c = true) : isAsciiAlnum c = true := by
  simp only [isAsciiAlpha, Bool.or_eq_true, Bool.and_eq_true, decide_eq_true_iff] at h
  simp only [isAsciiAlnum, Bool.or_eq_true, Bool.and_eq_true, decide_eq_true_iff]
  omega

theorem isPySpace_false_of_alnum (c : Char) (h : isAsciiAlnum c = true) :
    isPySpace c = false := by
  have hb : ∀ d : Char, isAsciiAlnum d = false → (c == d) = false := by
    intro d hd
    rw [beq_eq_false_iff_ne]
    intro he
    rw [he, hd] at h
    cases h
  rw [isPySpace, hb ' ' (by decide), hb '\t' (by decide), hb '\n' (by decide),
    hb '\r' (by decide), hb (Char.ofNat 11) (by decide), hb (Char.ofNat 12) (by decide),
    hb (Char.ofNat 0x85) (by decide), hb (Char.ofNat 0xa0) (by decide),
    hb (Char.ofNat 0x3000) (by decide)]
  rfl

end CharLemmas

-- ------------- List splitting lemmas for the URL normalizer -------------

section SplitLemmas

theorem splitFirst_none_iff (c : Char) : ∀ l : Str, splitFirst c l = none ↔ c ∉ l := by
  intro l
  induction l with
  | nil => simp [splitFirst]
  | cons x t ih =>
    rw [splitFirst]
    by_cases hx : x = c
    · subst hx
      simp
    · have hb : (x == c) = false := beq_eq_false_iff_ne.mpr hx
      rw [hb]
      simp only [Bool.false_eq_true, if_false, List.mem_cons]
      constructor
      · intro h
        cases hs : splitFirst c t with
        | none =>
          rintro (h2 | h2)
          · exact hx h2.symm
          · exact (ih.mp hs) h2
        | some p => rw [hs] at h; cases h
      · intro h
        rw [ih.mpr (fun hm => h (Or.inr hm))]
        rfl

theorem splitFirst_sep (c : Char) :
    ∀ (a b : Str), c ∉ a → splitFirst c (a ++ c :: b) = some (a, b) := by
  intro a
  induction a with
  | nil =>
    intro b _
    rw [List.nil_append, splitFirst]
    simp
  | cons x t ih =>
    intro b h
    have hx : (x == c) = false := by
      rw [beq_eq_false_iff_ne]
      intro he
      exact h (he ▸ List.mem_cons_self _ _)
    rw [List.cons_append, splitFirst, hx]
    simp only [Bool.false_eq_true, if_false,
      ih b (fun hm => h (List.mem_cons_of_mem _ hm))]
    rfl

theorem splitFirst_decomp (c : Char) :
    ∀ (l a b : Str), splitFirst c l = some (a, b) → l = a ++ c :: b ∧ c ∉ a := by
  intro l
  induction l with
  | nil => intro a b h; cases h
  | cons x t ih =>
    intro a b h
    rw [splitFirst] at h
    by_cases hx : (x == c) = true
    · rw [if_pos hx] at h
      rw [beq_iff_eq] at hx
      cases h
      subst hx
      exact ⟨rfl, List.not_mem_nil _⟩
    · rw [if_neg hx] at h
      cases hs : splitFirst c t with
      | none => rw [hs] at h; cases h
      | some p =>
        rw [hs] at h
        cases h
        rcases ih p.1 p.2 hs with ⟨ht, hnm⟩
        refine ⟨by rw [List.cons_append, ← ht], ?_⟩
        intro hm
        rcases List.mem_cons.mp hm with hm | hm
        · exact hx (by rw [hm]; simp)
        · exact hnm hm

theorem takeWhileAppendAll {p : Char → Bool} :
    ∀ {a b : Str}, (∀ x ∈ a, p x = true) → (a ++ b).takeWhile p = a ++ b.takeWhile p := by
  intro a
  induction a with
  | nil => intro b _; simp
  | cons x t ih =>
    intro b h
    rw [List.cons_append, List.takeWhile_cons, h x (List.mem_cons_self _ _)]
    simp only [if_true, List.cons_append]
    rw [ih (fun y hy => h y (List.mem_cons_of_mem _ hy))]

theorem dropWhileAppendAll {p : Char → Bool} :
    ∀ {a b : Str}, (∀ x ∈ a, p x = true) → (a ++ b).dropWhile p = b.dropWhile p := by
  intro a
  induction a with
  | nil => intro b _; simp
  | cons x t ih =>
    intro b h
    rw [List.cons_append, List.dropWhile_cons, h x (List.mem_cons_self _ _)]
    simp only [if_true]
    rw [ih (fun y hy => h y (List.mem_cons_of_mem _ hy))]

theorem takeWhile_eq_self {p : Char → Bool} {l : Str} (h : ∀ x ∈ l, p x = true) :
    l.takeWhile p = l :=
  List.takeWhile_eq_self_iff.mpr h

theorem splitAll_ne_nil (c : Char) : ∀ l : Str, splitAll c l ≠ [] := by
  intro l
  induction l with
  | nil => intro h; cases h
  | cons x t ih =>
    rw [splitAll]
    cases hs : splitAll c t with
    | nil => exact absurd hs ih
    | cons hh rs =>
      by_cases hx : (x == c) = true
      · simp [hx]
      · simp [hx]

theorem splitAll_not_mem (c : Char) : ∀ l : Str, c ∉ l → splitAll c l = [l] := by
  intro l
  induction l with
  | nil => intro _; rfl
  | cons x t ih =>
    intro h
    rw [splitAll, ih (fun hm => h (List.mem_cons_of_mem _ hm))]
    have hx : (x == c) = false := by
      rw [beq_eq_false_iff_ne]
      intro he
      exact h (he ▸ List.mem_cons_self _ _)
    rw [hx]
    simp

theorem splitAll_sep (c : Char) :
    ∀ (a b : Str), c ∉ a → splitAll c (a ++ c :: b) = a :: splitAll c b := by
  intro a
  induction a with
  | nil =>
    intro b _
    rw [List.nil_append, splitAll]
    cases hs : splitAll c b with
    | nil => exact absurd hs (splitAll_ne_nil c b)
    | cons hh rs => simp
  | cons x t ih =>
    intro b h
    have hx : (x == c) = false := by
      rw [beq_eq_false_iff_ne]
      intro he
      exact h (he ▸ List.mem_cons_self _ _)
    rw [List.cons_append, splitAll, ih b (fun hm => h (List.mem_cons_of_mem _ hm)), hx]
    simp

end SplitLemmas

-- ------------- Query- and quoting-level lemmas -------------

section QueryLemmas

theorem quote_plus_alnum (s : Str) (h : s.all isAsciiAlnum = true) : quote_plus s = s := by
  induction s with
  | nil => rfl
  | cons c t ih =>
    rw [List.all_cons, Bool.and_eq_true] at h
    rw [quote_plus, List.foldr_cons]
    have hsafe : alwaysSafeChar c = true := by
      rw [alwaysSafeChar, h.1]
      simp
    rw [quotePlusChar, if_pos hsafe]
    have := ih h.2
    rw [quote_plus] at this
    rw [this]
    rfl

theorem unquotePlusGo_id (fuel : Nat) :
    ∀ s : Str, (∀ c ∈ s, c ≠ '%' ∧ c ≠ '+') → unquotePlusGo fuel s = s := by
  induction fuel with
  | zero => intro s _; rfl
  | succ fuel ih =>
    intro s h
    cases s with
    | nil => rfl
    | cons c t =>
      rcases h c (List.mem_cons_self _ _) with ⟨hpct, hplus⟩
      rw [unquotePlusGo, if_neg hplus, if_neg hpct,
        ih t (fun d hd => h d (List.mem_cons_of_mem _ hd))]

theorem unquote_plus_alnum (s : Str) (h : s.all isAsciiAlnum = true) : unquote_plus s = s := by
  rw [List.all_eq_true] at h
  refine unquotePlusGo_id s.length s (fun c hc => ?_)
  have hcal := h c hc
  constructor
  · intro he; rw [he] at hcal; exact absurd hcal (by decide)
  · intro he; rw [he] at hcal; exact absurd hcal (by decide)

theorem alnum_no_amp (s : Str) (h : s.all isAsciiAlnum = true) : '&' ∉ s := by
  rw [List.all_eq_true] at h
  intro hm
  exact absurd (h '&' hm) (by decide)

theorem alnum_no_eq (s : Str) (h : s.all isAsciiAlnum = true) : '=' ∉ s := by
  rw [List.all_eq_true] at h
  intro hm
  exact absurd (h '=' hm) (by decide)

theorem parse_qsl_single (k v : Str) (hk : '&' ∉ k) (hke : '=' ∉ k) (hv : '&' ∉ v)
    (hvne : v ≠ []) :
    parse_qsl (k ++ '=' :: v) = [(unquote_plus k, unquote_plus v)] := by
  have hnm : '&' ∉ k ++ '=' :: v := by
    intro hm
    rcases List.mem_append.mp hm with hm | hm
    · exact hk hm
    · rcases List.mem_cons.mp hm with hm | hm
      · cases hm
      · exact hv hm
  rw [parse_qsl, splitAll_not_mem '&' _ hnm, List.foldr_cons, List.foldr_nil,
    splitFirst_sep '=' k v hke]
  simp only [if_neg hvne]

theorem parse_qsl_double (k1 v1 k2 v2 : Str) (hk1 : '&' ∉ k1) (hke1 : '=' ∉ k1)
    (hv1 : '&' ∉ v1) (hv1ne : v1 ≠ []) (hk2 : '&' ∉ k2) (hke2 : '=' ∉ k2) (hv2 : '&' ∉ v2)
    (hv2ne : v2 ≠ []) :
    parse_qsl ((k1 ++ '=' :: v1) ++ '&' :: (k2 ++ '=' :: v2)) =
      [(unquote_plus k1, unquote_plus v1), (unquote_plus k2, unquote_plus v2)] := by
  have hnm1 : '&' ∉ k1 ++ '=' :: v1 := by
    intro hm
    rcases List.mem_append.mp hm with hm | hm
    · exact hk1 hm
    · rcases List.mem_cons.mp hm with hm | hm
      · cases hm
      · exact hv1 hm
  have hnm2 : '&' ∉ k2 ++ '=' :: v2 := by
    intro hm
    rcases List.mem_append.mp hm with hm | hm
    · exact hk2 hm
    · rcases List.mem_cons.mp hm with hm | hm
      · cases hm
      · exact hv2 hm
  rw [parse_qsl, splitAll_sep '&' _ _ hnm1, splitAll_not_mem '&' _ hnm2,
    List.foldr_cons, List.foldr_cons, List.foldr_nil,
    splitFirst_sep '=' k1 v1 hke1, splitFirst_sep '=' k2 v2 hke2]
  simp only [if_neg hv1ne, if_neg hv2ne]

theorem urlencode_none_eq (T : Str) (hT : T.all isAsciiAlnum = true) :
    urlencodeTokenFlag T none = strChars "token" ++ '=' :: T := by
  rw [urlencodeTokenFlag, quote_plus_alnum T hT]
  rw [(by decide : strChars "token=" = strChars "token" ++ ['='])]
  simp

theorem urlencode_some_eq (T F : Str) (hT : T.all isAsciiAlnum = true)
    (hF : F.all isAsciiAlnum = true) :
    urlencodeTokenFlag T (some F) =
      (strChars "token" ++ '=' :: T) ++ '&' :: (strChars "flag" ++ '=' :: F) := by
  rw [urlencodeTokenFlag, quote_plus_alnum T hT, quote_plus_alnum F hF]
  rw [(by decide : strChars "token=" = strChars "token" ++ ['=']),
    (by decide : strChars "&flag=" = '&' :: strChars "flag" ++ ['='])]
  simp

theorem parse_qs_get_built_none (T : Str) (hTne : T ≠ []) (hT : T.all isAsciiAlnum = true) :
    parse_qs_get (urlencodeTokenFlag T none) (strChars "token") = [T] ∧
    parse_qs_get (urlencodeTokenFlag T none) (strChars "flag") = [] := by
  rw [urlencode_none_eq T hT]
  rw [parse_qs_get, parse_qs_get,
    parse_qsl_single (strChars "token") T (by decide) (by decide) (alnum_no_amp T hT) hTne]
  rw [(by decide : unquote_plus (strChars "token") = strChars "token"),
    unquote_plus_alnum T hT]
  constructor
  · simp [List.filterMap]
  · simp [List.filterMap, (by decide : ¬(strChars "token" = strChars "flag"))]

theorem parse_qs_get_built_some (T F : Str) (hTne : T ≠ []) (hT : T.all isAsciiAlnum = true)
    (hFne : F ≠ []) (hF : F.all isAsciiAlnum = true) :
    parse_qs_get (urlencodeTokenFlag T (some F)) (strChars "token") = [T] ∧
    parse_qs_get (urlencodeTokenFlag T (some F)) (strChars "flag") = [F] := by
  rw [urlencode_some_eq T F hT hF]
  rw [parse_qs_get, parse_qs_get,
    parse_qsl_double (strChars "token") T (strChars "flag") F
      (by decide) (by decide) (alnum_no_amp T hT) hTne
      (by decide) (by decide) (alnum_no_amp F hF) hFne]
  rw [(by decide : unquote_plus (strChars "token") = strChars "token"),
    (by decide : unquote_plus (strChars "flag") = strChars "flag"),
    unquote_plus_alnum T hT, unquote_plus_alnum F hF]
  constructor
  · simp [List.filterMap, (by decide : ¬(strChars "flag" = strChars "token"))]
  · simp [List.filterMap, (by decide : ¬(strChars "token" = strChars "flag"))]

end QueryLemmas

-- ------------- Path parameter-split lemmas -------------

section ParamLemmas

theorem head?_some_mem {l : Str} {a : Char} (h : l.head? = some a) : a ∈ l := by
  cases l with
  | nil => cases h
  | cons x t => cases h; exact List.mem_cons_self _ _

theorem getLast?_some_mem {l : Str} {a : Char} (h : l.getLast? = some a) : a ∈ l := by
  rw [← List.head?_reverse] at h
  exact List.mem_reverse.mp (head?_some_mem h)

theorem takeWhile_append_stop {p : Char → Bool} :
    ∀ {a b : Str}, a.dropWhile p ≠ [] → (a ++ b).takeWhile p = a.takeWhile p := by
  intro a
  induction a with
  | nil => intro b h; exact absurd rfl h
  | cons x t ih =>
    intro b h
    rw [List.cons_append, List.takeWhile_cons, List.takeWhile_cons]
    by_cases hx : p x = true
    · rw [if_pos hx, if_pos hx]
      rw [List.dropWhile_cons, if_pos hx] at h
      rw [ih h]
    · rw [if_neg hx, if_neg hx]

theorem lastSeg_no_slash (p : Str) :
    ∀ x ∈ (p.reverse.takeWhile (fun c => !(c == '/'))).reverse, x ≠ '/' := by
  intro x hx
  have := List.mem_takeWhile_imp (List.mem_reverse.mp hx)
  intro he
  rw [he] at this
  simp at this

theorem lastSeg_decomp (p : Str) :
    p = (p.reverse.dropWhile (fun c => !(c == '/'))).reverse ++
      (p.reverse.takeWhile (fun c => !(c == '/'))).reverse := by
  rw [← List.reverse_append, List.takeWhile_append_dropWhile, List.reverse_reverse]

theorem lastSeg_pre_last (p : Str) :
    (p.reverse.dropWhile (fun c => !(c == '/'))).reverse = [] ∨
    ∃ pre2, (p.reverse.dropWhile (fun c => !(c == '/'))).reverse = pre2 ++ ['/'] := by
  cases hd : p.reverse.dropWhile (fun c => !(c == '/')) with
  | nil => left; rfl
  | cons c t =>
    right
    have hc0 := List.head?_dropWhile_not (fun c => !(c == '/')) p.reverse
    rw [hd] at hc0
    have hc : c = '/' := by simpa using hc0
    subst hc
    exact ⟨t.reverse, by simp⟩

theorem lastSeg_of_append_seg (pre a : Str)
    (hpre : pre = [] ∨ ∃ pre2, pre = pre2 ++ ['/'])
    (ha : ∀ x ∈ a, x ≠ '/') :
    ((pre ++ a).reverse.takeWhile (fun c => !(c == '/'))).reverse = a := by
  rw [List.reverse_append]
  have haall : ∀ x ∈ a.reverse, (fun c => !(c == '/')) x = true := by
    intro x hx
    simpa using ha x (List.mem_reverse.mp hx)
  rcases hpre with rfl | ⟨pre2, rfl⟩
  · rw [List.reverse_nil, List.append_nil, takeWhile_eq_self haall, List.reverse_reverse]
  · rw [takeWhileAppendAll haall]
    rw [show (pre2 ++ ['/']).reverse = '/' :: pre2.reverse by simp]
    rw [List.takeWhile_cons, if_neg (by simp)]
    simp

theorem take_sub_len (x y : Str) : (x ++ y).take ((x ++ y).length - y.length) = x := by
  rw [List.length_append]
  rw [show x.length + y.length - y.length = x.length by omega]
  exact List.take_left _ _

theorem splitParamsPy_of_decomp (pre seg : Str)
    (hpre : pre = [] ∨ ∃ pre2, pre = pre2 ++ ['/'])
    (hseg : ∀ x ∈ seg, x ≠ '/') :
    splitParamsPy (pre ++ seg) =
      (match splitFirst ';' seg with
       | none => (pre ++ seg, [])
       | some (a, b) => (pre ++ a, b)) := by
  rw [splitParamsPy, lastSeg_of_append_seg pre seg hpre hseg]
  cases hsp : splitFirst ';' seg with
  | none => rfl
  | some p2 =>
    obtain ⟨a, b⟩ := p2
    rw [take_sub_len]

theorem splitParamsPy_stable (p : Str) :
    splitParamsPy ((splitParamsPy p).1) = ((splitParamsPy p).1, []) := by
  have hrw : splitParamsPy p =
      (match splitFirst ';' ((p.reverse.takeWhile (fun c => !(c == '/'))).reverse) with
       | none => ((p.reverse.dropWhile (fun c => !(c == '/'))).reverse ++
           (p.reverse.takeWhile (fun c => !(c == '/'))).reverse, [])
       | some (a, b) => ((p.reverse.dropWhile (fun c => !(c == '/'))).reverse ++ a, b)) := by
    conv_lhs => rw [lastSeg_decomp p]
    rw [splitParamsPy_of_decomp _ _ (lastSeg_pre_last p) (lastSeg_no_slash p)]
  cases hsp : splitFirst ';' ((p.reverse.takeWhile (fun c => !(c == '/'))).reverse) with
  | none =>
    rw [hrw, hsp]
    show splitParamsPy ((p.reverse.dropWhile (fun c => !(c == '/'))).reverse ++
        (p.reverse.takeWhile (fun c => !(c == '/'))).reverse) =
      ((p.reverse.dropWhile (fun c => !(c == '/'))).reverse ++
        (p.reverse.takeWhile (fun c => !(c == '/'))).reverse, [])
    rw [splitParamsPy_of_decomp _ _ (lastSeg_pre_last p) (lastSeg_no_slash p), hsp]
  | some p2 =>
    obtain ⟨a, b⟩ := p2
    rcases splitFirst_decomp ';' _ a b hsp with ⟨hdec, hnsemi⟩
    have haslash : ∀ x ∈ a, x ≠ '/' := by
      intro x hx
      exact lastSeg_no_slash p x (by rw [hdec]; exact List.mem_append_left _ hx)
    rw [hrw, hsp]
    show splitParamsPy ((p.reverse.dropWhile (fun c => !(c == '/'))).reverse ++ a) =
      ((p.reverse.dropWhile (fun c => !(c == '/'))).reverse ++ a, [])
    rw [splitParamsPy_of_decomp _ _ (lastSeg_pre_last p) haslash,
      (splitFirst_none_iff ';' a).mpr hnsemi]

theorem splitParamsPy_fst_stable_cons (p : Str) (h : splitParamsPy p = (p, [])) :
    splitParamsPy ('/' :: p) = ('/' :: p, []) := by
  have hrw : splitParamsPy p =
      (match splitFirst ';' ((p.reverse.takeWhile (fun c => !(c == '/'))).reverse) with
       | none => ((p.reverse.dropWhile (fun c => !(c == '/'))).reverse ++
           (p.reverse.takeWhile (fun c => !(c == '/'))).reverse, [])
       | some (a, b) => ((p.reverse.dropWhile (fun c => !(c == '/'))).reverse ++ a, b)) := by
    conv_lhs => rw [lastSeg_decomp p]
    rw [splitParamsPy_of_decomp _ _ (lastSeg_pre_last p) (lastSeg_no_slash p)]
  have hnone : splitFirst ';' ((p.reverse.takeWhile (fun c => !(c == '/'))).reverse) = none := by
    cases hsp : splitFirst ';' ((p.reverse.takeWhile (fun c => !(c == '/'))).reverse) with
    | none => rfl
    | some p2 =>
      obtain ⟨a, b⟩ := p2
      rw [hrw, hsp] at h
      rcases splitFirst_decomp ';' _ a b hsp with ⟨hdec, -⟩
      have h1 := congrArg (fun x : Str × Str => x.1.length) h
      have hplen : p.length =
          ((p.reverse.dropWhile (fun c => !(c == '/'))).reverse).length +
          ((p.reverse.takeWhile (fun c => !(c == '/'))).reverse).length := by
        conv_lhs => rw [lastSeg_decomp p]
        rw [List.length_append]
      have hseglen := congrArg List.length hdec
      rw [List.length_append, List.length_cons] at hseglen
      simp only [List.length_append] at h1
      omega
  have hcons : ('/' :: p) = ('/' :: (p.reverse.dropWhile (fun c => !(c == '/'))).reverse) ++
      (p.reverse.takeWhile (fun c => !(c == '/'))).reverse := by
    conv_lhs => rw [lastSeg_decomp p]
    rfl
  have hpre2 : ('/' :: (p.reverse.dropWhile (fun c => !(c == '/'))).reverse) = [] ∨
      ∃ pre2, ('/' :: (p.reverse.dropWhile (fun c => !(c == '/'))).reverse) = pre2 ++ ['/'] := by
    right
    rcases lastSeg_pre_last p with h0 | ⟨pre2, h0⟩
    · exact ⟨[], by rw [h0]; rfl⟩
    · exact ⟨'/' :: pre2, by rw [h0]; rfl⟩
  rw [hcons, splitParamsPy_of_decomp _ _ hpre2 (lastSeg_no_slash p), hnone]

end ParamLemmas

-- ------------- urlparse structural lemmas -------------

section ParseLemmas

theorem urlparse_built (s n p q : Str)
    (hshead : ∃ c t0, s = c :: t0 ∧ isAsciiAlpha c = true)
    (hsall : s.all schemeChar = true)
    (hnall : n.all notNetlocEnd = true)
    (hp : p = [] ∨ ∃ t0, p = '/' :: t0)
    (hpq : p.all (fun c => !(c == '?' || c == '#')) = true)
    (hq : q.all (fun c => !(c == '#')) = true) :
    urlparsePy (s ++ ':' :: '/' :: '/' :: (n ++ (p ++ '?' :: q))) =
      ⟨toLowerStr s, n, (splitParamsPy p).1, (splitParamsPy p).2, q, []⟩ := by
  have hcolon : ':' ∉ s := by
    rw [List.all_eq_true] at hsall
    intro hm
    exact schemeChar_ne_colon ':' (hsall ':' hm) rfl
  have hms : matchScheme (s ++ ':' :: '/' :: '/' :: (n ++ (p ++ '?' :: q))) =
      (toLowerStr s, '/' :: '/' :: (n ++ (p ++ '?' :: q))) := by
    rw [matchScheme, splitFirst_sep ':' _ _ hcolon]
    rcases hshead with ⟨c, t0, rfl, hc⟩
    show (if (isAsciiAlpha c && List.all (c :: t0) schemeChar) = true then
        (toLowerStr (c :: t0), '/' :: '/' :: (n ++ (p ++ '?' :: q)))
      else ([], c :: t0 ++ ':' :: '/' :: '/' :: (n ++ (p ++ '?' :: q)))) =
      (toLowerStr (c :: t0), '/' :: '/' :: (n ++ (p ++ '?' :: q)))
    rw [if_pos]
    rw [Bool.and_eq_true]
    exact ⟨hc, hsall⟩
  have htake : (n ++ (p ++ '?' :: q)).takeWhile notNetlocEnd = n := by
    rw [takeWhileAppendAll (List.all_eq_true.mp hnall)]
    rcases hp with rfl | ⟨t0, rfl⟩
    · rw [List.nil_append, List.takeWhile_cons, if_neg (by decide)]
      simp
    · rw [List.cons_append, List.takeWhile_cons, if_neg (by decide)]
      simp
  have hdrop : (n ++ (p ++ '?' :: q)).dropWhile notNetlocEnd = p ++ '?' :: q := by
    rw [dropWhileAppendAll (List.all_eq_true.mp hnall)]
    rcases hp with rfl | ⟨t0, rfl⟩
    · rw [List.nil_append, List.dropWhile_cons, if_neg (by decide)]
    · rw [List.cons_append, List.dropWhile_cons, if_neg (by decide)]
  have hnet : splitNetloc ('/' :: '/' :: (n ++ (p ++ '?' :: q))) = (n, p ++ '?' :: q) := by
    rw [splitNetloc, if_pos (by rfl :
      isPrefixStr (strChars "//") ('/' :: '/' :: (n ++ (p ++ '?' :: q))) = true)]
    rw [show ('/' :: '/' :: (n ++ (p ++ '?' :: q))).drop 2 = n ++ (p ++ '?' :: q) from rfl]
    rw [htake, hdrop]
  have hfrag : splitFragment (p ++ '?' :: q) = (p ++ '?' :: q, []) := by
    rw [splitFragment]
    have hnm : '#' ∉ p ++ '?' :: q := by
      intro hm
      rcases List.mem_append.mp hm with hm | hm
      · have := List.all_eq_true.mp hpq _ hm
        simp at this
      · rcases List.mem_cons.mp hm with hm | hm
        · cases hm
        · have := List.all_eq_true.mp hq _ hm
          simp at this
    rw [(splitFirst_none_iff '#' _).mpr hnm]
  have hqm : '?' ∉ p := by
    intro hm
    have := List.all_eq_true.mp hpq _ hm
    simp at this
  have hquery : splitQuery (p ++ '?' :: q) = (p, q) := by
    rw [splitQuery, splitFirst_sep '?' _ _ hqm]
  rw [urlparsePy, hms]
  simp only [hnet, hfrag, hquery]

theorem matchScheme_fst_facts (url : Str) (h : (matchScheme url).1 ≠ []) :
    (matchScheme url).1.all schemeChar = true ∧
    (∃ c t0, (matchScheme url).1 = c :: t0 ∧ isAsciiAlpha c = true) ∧
    toLowerStr (matchScheme url).1 = (matchScheme url).1 := by
  cases hsp : splitFirst ':' url with
  | none =>
    have he : matchScheme url = ([], url) := by
      rw [matchScheme]; simp only [hsp]
    rw [he] at h
    exact absurd rfl h
  | some pr =>
    obtain ⟨pre, post⟩ := pr
    cases pre with
    | nil =>
      have he : matchScheme url = ([], url) := by
        rw [matchScheme]; simp only [hsp]; simp
      rw [he] at h
      exact absurd rfl h
    | cons c t0 =>
      by_cases hcond : (isAsciiAlpha c && List.all (c :: t0) schemeChar) = true
      · have he : matchScheme url = (toLowerStr (c :: t0), post) := by
          rw [matchScheme]; simp only [hsp]
          exact if_pos hcond
        rw [he] at h ⊢
        rw [Bool.and_eq_true] at hcond
        rcases hcond with ⟨hhead, hall⟩
        refine ⟨toLowerStr_schemeAll _ hall, ⟨Char.toLower c, toLowerStr t0, rfl,
          isAsciiAlpha_toLower c (by exact hhead)⟩, toLowerStr_idem _⟩
      · have he : matchScheme url = ([], url) := by
          rw [matchScheme]; simp only [hsp]
          exact if_neg hcond
        rw [he] at h
        exact absurd rfl h

theorem matchScheme_snd_mem (url : Str) : ∀ x ∈ (matchScheme url).2, x ∈ url := by
  cases hsp : splitFirst ':' url with
  | none =>
    have he : matchScheme url = ([], url) := by
      rw [matchScheme]; simp only [hsp]
    rw [he]
    intro x hx
    exact hx
  | some pr =>
    obtain ⟨pre, post⟩ := pr
    rcases splitFirst_decomp ':' url pre post hsp with ⟨hdec, -⟩
    cases pre with
    | nil =>
      have he : matchScheme url = ([], url) := by
        rw [matchScheme]; simp only [hsp]; simp
      rw [he]
      intro x hx
      exact hx
    | cons c t0 =>
      by_cases hcond : (isAsciiAlpha c && List.all (c :: t0) schemeChar) = true
      · have he : matchScheme url = (toLowerStr (c :: t0), post) := by
          rw [matchScheme]; simp only [hsp]
          exact if_pos hcond
        rw [he]
        intro x hx
        rw [hdec]
        exact List.mem_append_right _ (List.mem_cons_of_mem _ hx)
      · have he : matchScheme url = ([], url) := by
          rw [matchScheme]; simp only [hsp]
          exact if_neg hcond
        rw [he]
        intro x hx
        exact hx

theorem splitNetloc_fst_chars (rest : Str) :
    ∀ x ∈ (splitNetloc rest).1, notNetlocEnd x = true := by
  rw [splitNetloc]
  by_cases hpre : isPrefixStr (strChars "//") rest = true
  · rw [if_pos hpre]
    intro x hx
    exact List.mem_takeWhile_imp hx
  · rw [if_neg hpre]
    intro x hx
    cases hx

theorem splitNetloc_mem (rest : Str) :
    (∀ x ∈ (splitNetloc rest).1, x ∈ rest) ∧ (∀ x ∈ (splitNetloc rest).2, x ∈ rest) := by
  rw [splitNetloc]
  by_cases hpre : isPrefixStr (strChars "//") rest = true
  · rw [if_pos hpre]
    constructor
    · intro x hx
      exact List.mem_of_mem_drop ((List.takeWhile_sublist _).subset hx)
    · intro x hx
      exact List.mem_of_mem_drop ((List.dropWhile_sublist _).subset hx)
  · rw [if_neg hpre]
    exact ⟨fun x hx => absurd hx (List.not_mem_nil x), fun x hx => hx⟩

theorem splitFragment_facts (rest : Str) :
    (∀ x ∈ (splitFragment rest).1, x ∈ rest) ∧ ('#' ∉ (splitFragment rest).1) := by
  rw [splitFragment]
  cases hsp : splitFirst '#' rest with
  | none =>
    exact ⟨fun x hx => hx, (splitFirst_none_iff '#' rest).mp hsp⟩
  | some pr =>
    obtain ⟨a, b⟩ := pr
    rcases splitFirst_decomp '#' rest a b hsp with ⟨hdec, hnm⟩
    exact ⟨fun x hx => hdec ▸ List.mem_append_left _ hx, hnm⟩

theorem splitQuery_facts (rest : Str) :
    (∀ x ∈ (splitQuery rest).1, x ∈ rest) ∧ ('?' ∉ (splitQuery rest).1) ∧
    (∀ x ∈ (splitQuery rest).2, x ∈ rest) := by
  rw [splitQuery]
  cases hsp : splitFirst '?' rest with
  | none =>
    exact ⟨fun x hx => hx, (splitFirst_none_iff '?' rest).mp hsp,
      fun x hx => absurd hx (List.not_mem_nil x)⟩
  | some pr =>
    obtain ⟨a, b⟩ := pr
    rcases splitFirst_decomp '?' rest a b hsp with ⟨hdec, hnm⟩
    refine ⟨fun x hx => hdec ▸ List.mem_append_left _ hx, hnm,
      fun x hx => hdec ▸ List.mem_append_right _ (List.mem_cons_of_mem _ hx)⟩

theorem splitParamsPy_fst_mem (p : Str) : ∀ x ∈ (splitParamsPy p).1, x ∈ p := by
  rw [splitParamsPy]
  cases hsp : splitFirst ';' ((p.reverse.takeWhile (fun c => !(c == '/'))).reverse) with
  | none => intro x hx; exact hx
  | some pr =>
    obtain ⟨a, b⟩ := pr
    rcases splitFirst_decomp ';' _ a b hsp with ⟨hdec, -⟩
    intro x hx
    rcases List.mem_append.mp hx with hx | hx
    · exact List.mem_of_mem_take hx
    · have : x ∈ (p.reverse.takeWhile (fun c => !(c == '/'))).reverse := by
        rw [hdec]
        exact List.mem_append_left _ hx
      rw [List.mem_reverse] at this
      exact List.mem_reverse.mp ((List.takeWhile_sublist _).subset this)

end ParseLemmas

-- ------------- Normalizer rebuild lemmas -------------

section RebuildLemmas

theorem dropWhile_eq_self_of (p : Char → Bool) (l : Str) (h : ∀ c ∈ l, p c = false) :
    l.dropWhile p = l := by
  cases l with
  | nil => rfl
  | cons x t =>
    rw [List.dropWhile_cons, h x (List.mem_cons_self _ _)]
    simp

theorem safe_not_pyspace (c : Char) (h : isSafeChar c = true) : isPySpace c = false := by
  have hb : ∀ d : Char, isSafeChar d = false → (c == d) = false := by
    intro d hd
    rw [beq_eq_false_iff_ne]
    intro he
    rw [he, hd] at h
    cases h
  rw [isPySpace, hb ' ' (by decide), hb '\t' (by decide), hb '\n' (by decide),
    hb '\r' (by decide), hb (Char.ofNat 11) (by decide), hb (Char.ofNat 12) (by decide),
    hb (Char.ofNat 0x85) (by decide), hb (Char.ofNat 0xa0) (by decide),
    hb (Char.ofNat 0x3000) (by decide)]
  rfl

theorem pyStrip_eq_self (s : Str) (h : ∀ c ∈ s, isPySpace c = false) : pyStrip s = s := by
  rw [pyStrip, dropWhile_eq_self_of _ _ h,
    dropWhile_eq_self_of _ _ (fun c hc => h c (List.mem_reverse.mp hc)),
    List.reverse_reverse]

theorem takeWhileCut {p : Char → Bool} (a b : Str) (ha : ∀ c ∈ a, p c = true)
    (hb : b = [] ∨ ∃ d t, b = d :: t ∧ p d = false) :
    (a ++ b).takeWhile p = a := by
  rcases hb with rfl | ⟨d, t, rfl, hd⟩
  · rw [List.append_nil]
    exact takeWhile_eq_self ha
  · rw [takeWhileAppendAll ha, List.takeWhile_cons, hd]
    simp

theorem containsSub_cons (m : Str) (c : Char) (p : Str) (h : containsSub m p = true) :
    containsSub m (c :: p) = true := by
  rw [containsSub, h]
  simp

theorem containsSub_marker_ne_nil (p : Str) (h : containsSub markerStr p = true) : p ≠ [] := by
  intro hp
  rw [hp] at h
  exact absurd h (by decide)

theorem urlencodeTokenFlag_ne_nil (T : Str) (fl : Option Str) :
    urlencodeTokenFlag T fl ≠ [] := by
  rw [urlencodeTokenFlag.eq_def]
  intro h
  rw [List.append_eq_nil, List.append_eq_nil] at h
  exact absurd h.1.1 (by decide)

theorem all_ne_hash_of_alnum (X : Str) (hX : X.all isAsciiAlnum = true) :
    X.all (fun c => !(c == '#')) = true := by
  rw [List.all_eq_true] at hX ⊢
  intro c hc
  have := isAsciiAlnum_ne c (hX c hc) '#' (by decide)
  simp [this]

theorem urlencodeTokenFlag_chars (T : Str) (fl : Option Str) (hT : T.all isAsciiAlnum = true)
    (hfl : ∀ F, fl = some F → F.all isAsciiAlnum = true) :
    (∀ c ∈ urlencodeTokenFlag T fl, isSafeChar c = true) ∧
    (urlencodeTokenFlag T fl).all (fun c => !(c == '#')) = true := by
  cases fl with
  | none =>
    rw [urlencode_none_eq T hT]
    constructor
    · intro c hc
      rcases List.mem_append.mp hc with hc | hc
      · exact (by decide : ∀ c ∈ strChars "token", isSafeChar c = true) c hc
      · rcases List.mem_cons.mp hc with rfl | hc
        · decide
        · exact isAsciiAlnum_safe c (List.all_eq_true.mp hT c hc)
    · rw [List.all_append, Bool.and_eq_true]
      refine ⟨by decide, ?_⟩
      rw [List.all_cons, Bool.and_eq_true]
      exact ⟨by decide, all_ne_hash_of_alnum T hT⟩
  | some F =>
    have hF := hfl F rfl
    rw [urlencode_some_eq T F hT hF]
    constructor
    · intro c hc
      rcases List.mem_append.mp hc with hc | hc
      · rcases List.mem_append.mp hc with hc | hc
        · exact (by decide : ∀ c ∈ strChars "token", isSafeChar c = true) c hc
        · rcases List.mem_cons.mp hc with rfl | hc
          · decide
          · exact isAsciiAlnum_safe c (List.all_eq_true.mp hT c hc)
      · rcases List.mem_cons.mp hc with rfl | hc
        · decide
        · rcases List.mem_append.mp hc with hc | hc
          · exact (by decide : ∀ c ∈ strChars "flag", isSafeChar c = true) c hc
          · rcases List.mem_cons.mp hc with rfl | hc
            · decide
            · exact isAsciiAlnum_safe c (List.all_eq_true.mp hF c hc)
    · rw [List.all_append, Bool.and_eq_true]
      constructor
      · rw [List.all_append, Bool.and_eq_true]
        refine ⟨by decide, ?_⟩
        rw [List.all_cons, Bool.and_eq_true]
        exact ⟨by decide, all_ne_hash_of_alnum T hT⟩
      · rw [List.all_cons, Bool.and_eq_true]
        refine ⟨by decide, ?_⟩
        rw [List.all_append, Bool.and_eq_true]
        refine ⟨by decide, ?_⟩
        rw [List.all_cons, Bool.and_eq_true]
        exact ⟨by decide, all_ne_hash_of_alnum F hF⟩

theorem flagOutOf_some_elim (q f : Str) (h : flagOutOf q = some f) :
    f ≠ [] ∧ f.all isAsciiAlnum = true := by
  rw [flagOutOf] at h
  cases hg : parse_qs_get q (strChars "flag") with
  | nil => rw [hg] at h; cases h
  | cons g gs =>
    simp only [hg] at h
    by_cases hc : g ≠ [] ∧ g.all isAsciiAlnum = true
    · rw [if_pos hc] at h
      cases h
      exact hc
    · rw [if_neg hc] at h
      cases h

theorem flagOutOf_roundtrip (T : Str) (fl : Option Str) (hTne : T ≠ [])
    (hT : T.all isAsciiAlnum = true)
    (hfl : ∀ F, fl = some F → F ≠ [] ∧ F.all isAsciiAlnum = true) :
    flagOutOf (urlencodeTokenFlag T fl) = fl := by
  cases fl with
  | none =>
    rw [flagOutOf, (parse_qs_get_built_none T hTne hT).2]
  | some F =>
    rcases hfl F rfl with ⟨hFne, hF⟩
    rw [flagOutOf, (parse_qs_get_built_some T F hTne hT hFne hF).2]
    show (if F ≠ [] ∧ List.all F isAsciiAlnum = true then some F else none) = some F
    rw [if_pos ⟨hFne, hF⟩]

theorem token_roundtrip (T : Str) (fl : Option Str) (hTne : T ≠ [])
    (hT : T.all isAsciiAlnum = true)
    (hfl : ∀ F, fl = some F → F ≠ [] ∧ F.all isAsciiAlnum = true) :
    parse_qs_get (urlencodeTokenFlag T fl) (strChars "token") = [T] := by
  cases fl with
  | none => exact (parse_qs_get_built_none T hTne hT).1
  | some F =>
    rcases hfl F rfl with ⟨hFne, hF⟩
    exact (parse_qs_get_built_some T F hTne hT hFne hF).1

end RebuildLemmas

section RebuildLemmas2

theorem normCoreUrl_some_elim (pu : UrlParts) (v : Str) (h : normCoreUrl pu = some v) :
    pu.scheme ≠ [] ∧ pu.netloc ≠ [] ∧
    containsSub markerStr pu.path = true ∧
    (containsSub (strChars "xxxx") (toLowerStr pu.netloc) ||
     containsSub (strChars "your-provider.com") (toLowerStr pu.netloc)) = false ∧
    ∃ token rest, parse_qs_get pu.query (strChars "token") = token :: rest ∧
      token ≠ [] ∧ token.all isAsciiAlnum = true ∧
      toLowerStr token ≠ strChars "xxxx" ∧
      v = urlunparsePy pu.scheme pu.netloc pu.path
        (urlencodeTokenFlag token (flagOutOf pu.query)) := by
  rw [normCoreUrl] at h
  by_cases h1 : pu.scheme = [] ∨ pu.netloc = []
  · rw [if_pos h1] at h; cases h
  rw [if_neg h1] at h
  by_cases h2 : containsSub markerStr pu.path = false
  · rw [if_pos h2] at h; cases h
  rw [if_neg h2] at h
  by_cases h3 : (containsSub (strChars "xxxx") (toLowerStr pu.netloc) ||
      containsSub (strChars "your-provider.com") (toLowerStr pu.netloc)) = true
  · rw [if_pos h3] at h; cases h
  rw [if_neg h3] at h
  push_neg at h1
  have h2t : containsSub markerStr pu.path = true := by
    cases hb : containsSub markerStr pu.path with
    | false => exact absurd hb h2
    | true => rfl
  have h3f : (containsSub (strChars "xxxx") (toLowerStr pu.netloc) ||
      containsSub (strChars "your-provider.com") (toLowerStr pu.netloc)) = false := by
    cases hb : (containsSub (strChars "xxxx") (toLowerStr pu.netloc) ||
        containsSub (strChars "your-provider.com") (toLowerStr pu.netloc)) with
    | false => rfl
    | true => exact absurd hb h3
  refine ⟨h1.1, h1.2, h2t, h3f, ?_⟩
  cases htok : parse_qs_get pu.query (strChars "token") with
  | nil => rw [htok] at h; cases h
  | cons token rest =>
    simp only [htok] at h
    by_cases h4 : token = [] ∨ token.all isAsciiAlnum = false
    · rw [if_pos h4] at h; cases h
    rw [if_neg h4] at h
    by_cases h5 : toLowerStr token = strChars "xxxx"
    · rw [if_pos h5] at h; cases h
    rw [if_neg h5] at h
    push_neg at h4
    have h4t : token.all isAsciiAlnum = true := by
      cases hb : token.all isAsciiAlnum with
      | false => exact absurd hb h4.2
      | true => rfl
    cases h
    exact ⟨token, rest, rfl, h4.1, h4t, h5, rfl⟩

theorem normCoreUrl_query_congr (pu1 pu2 : UrlParts)
    (hs : pu1.scheme = pu2.scheme) (hn : pu1.netloc = pu2.netloc) (hp : pu1.path = pu2.path)
    (htok : parse_qs_get pu1.query (strChars "token") =
      parse_qs_get pu2.query (strChars "token"))
    (hflag : parse_qs_get pu1.query (strChars "flag") =
      parse_qs_get pu2.query (strChars "flag")) :
    normCoreUrl pu1 = normCoreUrl pu2 := by
  have hfo : flagOutOf pu1.query = flagOutOf pu2.query := by
    rw [flagOutOf, flagOutOf, hflag]
  simp only [normCoreUrl, hs, hn, hp, htok, hfo]

theorem urlunparse_adjust (s n path q : Str) (hs : s ≠ []) (hn : n ≠ []) (hq : q ≠ [])
    (hpne : path ≠ []) :
    ∃ pAdj, (pAdj = path ∨ pAdj = '/' :: path) ∧ (∃ t0, pAdj = '/' :: t0) ∧
      urlunparsePy s n path q = s ++ ':' :: '/' :: '/' :: (n ++ (pAdj ++ '?' :: q)) ∧
      urlunparsePy s n pAdj q = s ++ ':' :: '/' :: '/' :: (n ++ (pAdj ++ '?' :: q)) := by
  have hcore : ∀ P : Str, isPrefixStr (strChars "/") P = true →
      urlunparsePy s n P q = s ++ ':' :: '/' :: '/' :: (n ++ (P ++ '?' :: q)) := by
    intro P hP
    have hnp : urlunparseNetpath n P = strChars "//" ++ n ++ P := by
      rw [urlunparseNetpath, if_pos (Or.inl hn),
        if_neg (show ¬(P ≠ [] ∧ isPrefixStr (strChars "/") P = false) from
          fun hcon => by rw [hP] at hcon; exact Bool.noConfusion hcon.2)]
    rw [urlunparsePy, hnp, if_pos hs, if_pos hq]
    rw [(by decide : strChars "//" = ['/', '/'])]
    simp [List.append_assoc]
  by_cases hpre : isPrefixStr (strChars "/") path = true
  · refine ⟨path, Or.inl rfl, ?_, hcore path hpre, hcore path hpre⟩
    cases path with
    | nil => exact absurd rfl hpne
    | cons c t =>
      have hpre2 : (('/' == c) && isPrefixStr [] t) = true := hpre
      rw [Bool.and_eq_true, beq_iff_eq] at hpre2
      exact ⟨t, by rw [← hpre2.1]⟩
  · have hpre2 : isPrefixStr (strChars "/") ('/' :: path) = true := by
      rw [(by decide : strChars "/" = ['/'])]
      simp [isPrefixStr]
    refine ⟨'/' :: path, Or.inr rfl, ⟨path, rfl⟩, ?_, hcore _ hpre2⟩
    have hnp : urlunparseNetpath n path = strChars "//" ++ n ++ ('/' :: path) := by
      rw [urlunparseNetpath, if_pos (Or.inl hn),
        if_pos ⟨hpne, by
          cases hb : isPrefixStr (strChars "/") path with
          | false => rfl
          | true => exact absurd hb hpre⟩]
    rw [urlunparsePy, hnp, if_pos hs, if_pos hq]
    rw [(by decide : strChars "//" = ['/', '/'])]
    simp [List.append_assoc]

theorem urlparse_comp_mem (url : Str) :
    (∀ x ∈ (urlparsePy url).netloc, x ∈ url) ∧
    (∀ x ∈ (urlparsePy url).path, x ∈ url) ∧
    (∀ x ∈ (urlparsePy url).query, x ∈ url) := by
  simp only [urlparsePy]
  refine ⟨?_, ?_, ?_⟩
  · intro x hx
    exact matchScheme_snd_mem url x ((splitNetloc_mem (matchScheme url).2).1 x hx)
  · intro x hx
    have h1 := splitParamsPy_fst_mem _ x hx
    have h2 := (splitQuery_facts _).1 x h1
    have h3 := (splitFragment_facts _).1 x h2
    have h4 := (splitNetloc_mem _).2 x h3
    exact matchScheme_snd_mem url x h4
  · intro x hx
    have h2 := (splitQuery_facts _).2.2 x hx
    have h3 := (splitFragment_facts _).1 x h2
    have h4 := (splitNetloc_mem _).2 x h3
    exact matchScheme_snd_mem url x h4

theorem urlparse_comp_chars (url : Str) :
    (urlparsePy url).netloc.all notNetlocEnd = true ∧
    (urlparsePy url).path.all (fun c => !(c == '?' || c == '#')) = true ∧
    (urlparsePy url).query.all (fun c => !(c == '#')) = true := by
  simp only [urlparsePy]
  refine ⟨?_, ?_, ?_⟩
  · rw [List.all_eq_true]
    intro x hx
    exact splitNetloc_fst_chars _ x hx
  · rw [List.all_eq_true]
    intro x hx
    have h1 := splitParamsPy_fst_mem _ x hx
    have hq : x ≠ '?' := fun he => (splitQuery_facts _).2.1 (he ▸ h1)
    have h2 := (splitQuery_facts _).1 x h1
    have hh : x ≠ '#' := fun he => (splitFragment_facts _).2 (he ▸ h2)
    simp [hq, hh]
  · rw [List.all_eq_true]
    intro x hx
    have h2 := (splitQuery_facts _).2.2 x hx
    have hh : x ≠ '#' := fun he => (splitFragment_facts _).2 (he ▸ h2)
    simp [hh]

theorem urlparse_path_stable (url : Str) :
    splitParamsPy ((urlparsePy url).path) = ((urlparsePy url).path, []) := by
  simp only [urlparsePy]
  exact splitParamsPy_stable _

end RebuildLemmas2

section RebuildFixed

theorem rebuild_fixed (S N P token : Str) (flagOut : Option Str)
    (hSall : S.all schemeChar = true)
    (hShead : ∃ c t0, S = c :: t0 ∧ isAsciiAlpha c = true)
    (hSlow : toLowerStr S = S)
    (hNne : N ≠ [])
    (hNall : N.all notNetlocEnd = true)
    (hNsafe : ∀ c ∈ N, isSafeChar c = true)
    (hNhost : (containsSub (strChars "xxxx") (toLowerStr N) ||
      containsSub (strChars "your-provider.com") (toLowerStr N)) = false)
    (hPmark : containsSub markerStr P = true)
    (hPsafe : ∀ c ∈ P, isSafeChar c = true)
    (hPall : P.all (fun c => !(c == '?' || c == '#')) = true)
    (hPstable : splitParamsPy P = (P, []))
    (htokne : token ≠ []) (htokal : token.all isAsciiAlnum = true)
    (htokx : toLowerStr token ≠ strChars "xxxx")
    (hflag : ∀ F, flagOut = some F → F ≠ [] ∧ F.all isAsciiAlnum = true)
    (hesc : unescapeHtml (urlunparsePy S N P (urlencodeTokenFlag token flagOut)) =
      urlunparsePy S N P (urlencodeTokenFlag token flagOut)) :
    normalize_subscribe_url (urlunparsePy S N P (urlencodeTokenFlag token flagOut)) =
      some (urlunparsePy S N P (urlencodeTokenFlag token flagOut)) := by
  obtain ⟨c0, t0, hS, hc0⟩ := hShead
  have hSne : S ≠ [] := by rw [hS]; simp
  have hqne : urlencodeTokenFlag token flagOut ≠ [] := urlencodeTokenFlag_ne_nil _ _
  have hPne : P ≠ [] := containsSub_marker_ne_nil P hPmark
  obtain ⟨pAdj, hor, ⟨tp, hpc⟩, hunp1, hunp2⟩ :=
    urlunparse_adjust S N P (urlencodeTokenFlag token flagOut) hSne hNne hqne hPne
  rw [hunp1] at hesc ⊢
  obtain ⟨hqsafe, hqhash⟩ := urlencodeTokenFlag_chars token flagOut htokal
    (fun F hF => (hflag F hF).2)
  have hpadjsafe : ∀ c ∈ pAdj, isSafeChar c = true := by
    rcases hor with h | h
    · rw [h]; exact hPsafe
    · rw [h]
      intro c hc
      rcases List.mem_cons.mp hc with rfl | hc
      · decide
      · exact hPsafe c hc
  have hpadjall : pAdj.all (fun c => !(c == '?' || c == '#')) = true := by
    rcases hor with h | h
    · rw [h]; exact hPall
    · rw [h, List.all_cons, Bool.and_eq_true]
      exact ⟨by decide, hPall⟩
  have hpadjstable : splitParamsPy pAdj = (pAdj, []) := by
    rcases hor with h | h
    · rw [h]; exact hPstable
    · rw [h]; exact splitParamsPy_fst_stable_cons P hPstable
  have hpadjmark : containsSub markerStr pAdj = true := by
    rcases hor with h | h
    · rw [h]; exact hPmark
    · rw [h]; exact containsSub_cons _ _ _ hPmark
  have hEsafe : ∀ c ∈ S ++ ':' :: '/' :: '/' ::
      (N ++ (pAdj ++ '?' :: urlencodeTokenFlag token flagOut)), isSafeChar c = true := by
    intro c hc
    rcases List.mem_append.mp hc with hc | hc
    · exact schemeChar_safe c (List.all_eq_true.mp hSall c hc)
    · rcases List.mem_cons.mp hc with rfl | hc
      · decide
      rcases List.mem_cons.mp hc with rfl | hc
      · decide
      rcases List.mem_cons.mp hc with rfl | hc
      · decide
      rcases List.mem_append.mp hc with hc | hc
      · exact hNsafe c hc
      rcases List.mem_append.mp hc with hc | hc
      · exact hpadjsafe c hc
      rcases List.mem_cons.mp hc with rfl | hc
      · decide
      · exact hqsafe c hc
  have hEne : S ++ ':' :: '/' :: '/' ::
      (N ++ (pAdj ++ '?' :: urlencodeTokenFlag token flagOut)) ≠ [] := by
    rw [hS]; simp
  rw [normalize_subscribe_url, if_neg hEne]
  rw [pyStrip_eq_self _ (fun c hc => safe_not_pyspace c (hEsafe c hc)), hesc,
    takeWhile_eq_self hEsafe]
  rw [urlparse_built S N pAdj (urlencodeTokenFlag token flagOut)
    ⟨c0, t0, hS, hc0⟩ hSall hNall (Or.inr ⟨tp, hpc⟩) hpadjall hqhash]
  simp only [hpadjstable, hSlow]
  simp only [normCoreUrl]
  rw [if_neg (show ¬(S = [] ∨ N = []) from not_or.mpr ⟨hSne, hNne⟩)]
  rw [if_neg (show ¬(containsSub markerStr pAdj = false) from
    fun h => by rw [hpadjmark] at h; exact Bool.noConfusion h)]
  rw [if_neg (show ¬((containsSub (strChars "xxxx") (toLowerStr N) ||
      containsSub (strChars "your-provider.com") (toLowerStr N)) = true) from
    fun h => by rw [hNhost] at h; exact Bool.noConfusion h)]
  simp only [token_roundtrip token flagOut htokne htokal hflag]
  rw [if_neg (show ¬(token = [] ∨ token.all isAsciiAlnum = false) from fun h =>
    h.elim htokne (fun h2 => by rw [htokal] at h2; exact Bool.noConfusion h2))]
  rw [if_neg htokx]
  rw [flagOutOf_roundtrip token flagOut htokne htokal hflag]
  rw [hunp2]

end RebuildFixed

/-- C7 (corrected): `normalize_subscribe_url` is NOT idempotent in general
(see `claim_C7_counterexample`: `html.unescape` is applied on every pass,
so an output still containing an HTML entity is unescaped again). It is
idempotent on outputs that are fixed points of HTML-unescaping: if
`normalize_subscribe_url u = some v` and `unescapeHtml v = v`, then
`normalize_subscribe_url v = some v`. -/
theorem claim_C7_normalize_idempotent_on_unescape_fixed (u v : Str)
    (h : normalize_subscribe_url u = some v) (hfix : unescapeHtml v = v) :
    normalize_subscribe_url v = some v := by
  rw [normalize_subscribe_url] at h
  by_cases hu : u = []
  · rw [if_pos hu] at h; cases h
  rw [if_neg hu] at h
  obtain ⟨hsch, hnet, hmark, hhost, token, rest, htokq, htokne, htokal, htokx, hveq⟩ :=
    normCoreUrl_some_elim _ _ h
  have hw : ∀ c ∈ (unescapeHtml (pyStrip u)).takeWhile isSafeChar, isSafeChar c = true :=
    fun c hc => List.mem_takeWhile_imp hc
  obtain ⟨hmemN, hmemP, hmemQ⟩ :=
    urlparse_comp_mem ((unescapeHtml (pyStrip u)).takeWhile isSafeChar)
  obtain ⟨hNall, hPall, hQall⟩ :=
    urlparse_comp_chars ((unescapeHtml (pyStrip u)).takeWhile isSafeChar)
  obtain ⟨hSall, hShead, hSlow⟩ :=
    matchScheme_fst_facts ((unescapeHtml (pyStrip u)).takeWhile isSafeChar) hsch
  rw [hveq] at hfix ⊢
  exact rebuild_fixed _ _ _ _ _ hSall hShead hSlow hnet hNall
    (fun c hc => hw c (hmemN c hc)) hhost hmark
    (fun c hc => hw c (hmemP c hc)) hPall (urlparse_path_stable _)
    htokne htokal htokx (fun F hF => flagOutOf_some_elim _ F hF) hfix

/-- C7 counterexample: the original idempotence claim fails. On the raw
URL `http://h/api/v1/client/subscribe/&amp;amp;/x?token=abc` the first
normalization unescapes `&amp;amp;` once (to `&amp;`), and normalizing
that output unescapes it again (to `&`), producing a different URL. -/
theorem claim_C7_counterexample :
    normalize_subscribe_url (strChars "http://h/api/v1/client/subscribe/&amp;amp;/x?token=abc") =
      some (strChars "http://h/api/v1/client/subscribe/&amp;/x?token=abc") ∧
    normalize_subscribe_url (strChars "http://h/api/v1/client/subscribe/&amp;/x?token=abc") =
      some (strChars "http://h/api/v1/client/subscribe/&/x?token=abc") ∧
    strChars "http://h/api/v1/client/subscribe/&amp;/x?token=abc" ≠
      strChars "http://h/api/v1/client/subscribe/&/x?token=abc" :=
  ⟨by decide, by decide, by decide⟩

/-- C7 witness: the amended theorem applied at a concrete entity-free
URL, whose normalization is a fixed point. -/
theorem claim_C7_witness :
    unescapeHtml (strChars "http://example.com/api/v1/client/subscribe?token=abc123") =
      strChars "http://example.com/api/v1/client/subscribe?token=abc123" ∧
    normalize_subscribe_url (strChars "http://example.com/api/v1/client/subscribe?token=abc123") =
      some (strChars "http://example.com/api/v1/client/subscribe?token=abc123") :=
  ⟨by decide, claim_C7_normalize_idempotent_on_unescape_fixed
    (strChars "http://example.com/api/v1/client/subscribe?token=abc123")
    (strChars "http://example.com/api/v1/client/subscribe?token=abc123")
    (by decide) (by decide)⟩

/-- C8: two candidate subscription URLs over the same scheme, host and
path that differ only in query parameters other than `token`/`flag` and
in trailing non-URL text normalize identically. Hypotheses state the
clean-URL shape of the two inputs (well-formed scheme/netloc/path/query
components built of safe characters, trailing text cut at its first
unsafe character, HTML-unescaping and whitespace-stripping fixed points)
and that the two query strings agree on the `token` and `flag` keys. -/
theorem claim_C8_query_noise_and_trailing_text_invariance
    (S N P q1 q2 trail1 trail2 : Str)
    (hShead : ∃ c t0, S = c :: t0 ∧ isAsciiAlpha c = true)
    (hSall : S.all schemeChar = true)
    (hNall : N.all notNetlocEnd = true)
    (hP : P = [] ∨ ∃ t0, P = '/' :: t0)
    (hPall : P.all (fun c => !(c == '?' || c == '#')) = true)
    (hq1 : q1.all (fun c => !(c == '#')) = true)
    (hq2 : q2.all (fun c => !(c == '#')) = true)
    (hsafe1 : ∀ c ∈ S ++ ':' :: '/' :: '/' :: (N ++ (P ++ '?' :: q1)), isSafeChar c = true)
    (hsafe2 : ∀ c ∈ S ++ ':' :: '/' :: '/' :: (N ++ (P ++ '?' :: q2)), isSafeChar c = true)
    (ht1 : trail1 = [] ∨ ∃ d t, trail1 = d :: t ∧ isSafeChar d = false)
    (ht2 : trail2 = [] ∨ ∃ d t, trail2 = d :: t ∧ isSafeChar d = false)
    (hstrip1 : pyStrip ((S ++ ':' :: '/' :: '/' :: (N ++ (P ++ '?' :: q1))) ++ trail1) =
      (S ++ ':' :: '/' :: '/' :: (N ++ (P ++ '?' :: q1))) ++ trail1)
    (hesc1 : unescapeHtml ((S ++ ':' :: '/' :: '/' :: (N ++ (P ++ '?' :: q1))) ++ trail1) =
      (S ++ ':' :: '/' :: '/' :: (N ++ (P ++ '?' :: q1))) ++ trail1)
    (hstrip2 : pyStrip ((S ++ ':' :: '/' :: '/' :: (N ++ (P ++ '?' :: q2))) ++ trail2) =
      (S ++ ':' :: '/' :: '/' :: (N ++ (P ++ '?' :: q2))) ++ trail2)
    (hesc2 : unescapeHtml ((S ++ ':' :: '/' :: '/' :: (N ++ (P ++ '?' :: q2))) ++ trail2) =
      (S ++ ':' :: '/' :: '/' :: (N ++ (P ++ '?' :: q2))) ++ trail2)
    (htok : parse_qs_get q1 (strChars "token") = parse_qs_get q2 (strChars "token"))
    (hflag : parse_qs_get q1 (strChars "flag") = parse_qs_get q2 (strChars "flag")) :
    normalize_subscribe_url ((S ++ ':' :: '/' :: '/' :: (N ++ (P ++ '?' :: q1))) ++ trail1) =
      normalize_subscribe_url ((S ++ ':' :: '/' :: '/' :: (N ++ (P ++ '?' :: q2))) ++ trail2) := by
  obtain ⟨c0, t0, hS, hc0⟩ := hShead
  have hne1 : (S ++ ':' :: '/' :: '/' :: (N ++ (P ++ '?' :: q1))) ++ trail1 ≠ [] := by
    rw [hS]; simp
  have hne2 : (S ++ ':' :: '/' :: '/' :: (N ++ (P ++ '?' :: q2))) ++ trail2 ≠ [] := by
    rw [hS]; simp
  simp only [normalize_subscribe_url]
  rw [if_neg hne1, if_neg hne2]
  rw [hstrip1, hesc1, hstrip2, hesc2]
  rw [takeWhileCut _ _ hsafe1 ht1, takeWhileCut _ _ hsafe2 ht2]
  rw [urlparse_built S N P q1 ⟨c0, t0, hS, hc0⟩ hSall hNall hP hPall hq1,
    urlparse_built S N P q2 ⟨c0, t0, hS, hc0⟩ hSall hNall hP hPall hq2]
  exact normCoreUrl_query_congr _ _ rfl rfl rfl htok hflag

/-- C8 witness: the invariance theorem applied to a clean subscription
URL and the same URL with an extra `foo=99` query parameter and trailing
junk text. -/
theorem claim_C8_witness :
    parse_qs_get (strChars "token=abc") (strChars "token") =
      parse_qs_get (strChars "token=abc&foo=99") (strChars "token") ∧
    normalize_subscribe_url ((strChars "http" ++ ':' :: '/' :: '/' ::
        (strChars "example.com" ++ (strChars "/api/v1/client/subscribe" ++
          '?' :: strChars "token=abc"))) ++ []) =
      normalize_subscribe_url ((strChars "http" ++ ':' :: '/' :: '/' ::
        (strChars "example.com" ++ (strChars "/api/v1/client/subscribe" ++
          '?' :: strChars "token=abc&foo=99"))) ++ strChars " junk") :=
  ⟨by decide, claim_C8_query_noise_and_trailing_text_invariance
    (strChars "http") (strChars "example.com") (strChars "/api/v1/client/subscribe")
    (strChars "token=abc") (strChars "token=abc&foo=99") [] (strChars " junk")
    ⟨'h', strChars "ttp", by decide, by decide⟩ (by decide) (by decide)
    (Or.inr ⟨strChars "api/v1/client/subscribe", by decide⟩) (by decide) (by decide)
    (by decide) (by decide) (by decide) (Or.inl rfl)
    (Or.inr ⟨' ', strChars "junk", by decide, by decide⟩)
    (by decide) (by decide) (by decide) (by decide) (by decide) (by decide)⟩
